import Mathlib

/-!
CalcGO: the expression evaluator of `pkg/calculation`.

A shallow embedding of `calculation.go` (`priority`, `convertToRPN`,
`calculateRPN`, `Calc`) and of the error values of `errors.go`.

Conventions of the embedding.

* A Go `string` is the list of its bytes; the code reads `expression[i]` one
  byte at a time and turns it into a rune with `rune(expression[i])`, so every
  rune the scanner sees is below 256.  A byte is written as the `Char` with the
  same code.
* The operator stack `operators` and the value stack `stack` are lists whose
  head is the top of the stack (the Go slices grow at the end).
* A Go result `(value, error)` is a pair whose second component is `none` for
  a `nil` error.
* `float64` and `strconv.ParseFloat` belong to the language and its library.
  The functions take them as a record `FloatOps`; `go64` is the IEEE-754
  binary64 instance used for closed evaluations.
-/

namespace CalcGO

/-- The four error values declared in `errors.go`. -/
inductive CalcError where
  | ErrBrackets
  | ErrValues
  | ErrDivisionByZero
  | ErrAllowed
  deriving DecidableEq

open CalcError

/-- A Go string, as the list of its bytes. -/
abbrev GoString := List Char

/-- The map `priority`; a key that is absent reads as the zero value `0`. -/
def priority (c : Char) : Nat :=
  if c = '+' then 1
  else if c = '-' then 1
  else if c = '*' then 2
  else if c = '/' then 2
  else 0

/-- `unicode.IsDigit` on a rune below 256: the decimal digits `0`..`9`. -/
def isDigit (c : Char) : Bool :=
  decide ('0'.toNat ≤ c.toNat ∧ c.toNat ≤ '9'.toNat)

/-- `unicode.IsSpace` on a rune below 256:
`'\t'`, `'\n'`, `'\v'`, `'\f'`, `'\r'`, `' '`, U+0085 and U+00A0. -/
def isSpace (c : Char) : Bool :=
  c.toNat = 9 || c.toNat = 10 || c.toNat = 11 || c.toNat = 12 || c.toNat = 13
    || c.toNat = 32 || c.toNat = 0x85 || c.toNat = 0xA0

/-- The test `unicode.IsDigit(char) || char == '.'` of lines 54 and 57. -/
def isNumChar (c : Char) : Bool :=
  isDigit c || c = '.'

/-- The first `case` of the switch: `'+'`, `'-'`, `'/'`, `'*'`. -/
def isOperator (c : Char) : Bool :=
  c = '+' || c = '-' || c = '/' || c = '*'

/-- The closure `pushOperator`: while the stack is not empty and its top has a
priority greater than or equal to that of `op`, move the top to `rpn`; then
push `op`. -/
def pushOperator (op : Char) : List GoString → List Char → List GoString × List Char
  | rpn, [] => (rpn, [op])
  | rpn, top :: rest =>
    if priority top ≥ priority op then pushOperator op (rpn ++ [[top]]) rest
    else (rpn, op :: top :: rest)

/-- The loop of the `')'` case: move operators to `rpn` until the stack is
empty or its top is `'('`. -/
def popToOpen : List GoString → List Char → List GoString × List Char
  | rpn, [] => (rpn, [])
  | rpn, top :: rest =>
    if top ≠ '(' then popToOpen (rpn ++ [[top]]) rest
    else (rpn, top :: rest)

/-- The loop after the scan (lines 93-101): move the remaining operators to
`rpn`, failing with `ErrBrackets` on a `'('`. -/
def drain : List GoString → List Char → List GoString × Option CalcError
  | rpn, [] => (rpn, none)
  | rpn, top :: rest =>
    if top = '(' then ([], some ErrBrackets)
    else drain (rpn ++ [[top]]) rest

/-- The scanning loop of `convertToRPN` (lines 50-90) followed by the final
drain.  The first argument bounds the number of iterations; every iteration
consumes at least one byte, so `len(expression)` iterations are enough
(`scanLoop_fuel`).  The second argument is `expression[i:]`. -/
def scanLoop : Nat → GoString → List GoString → List Char → List GoString × Option CalcError
  | _, [], rpn, operators => drain rpn operators
  | 0, _ :: _, rpn, _ => (rpn, none)
  | fuel + 1, char :: cs, rpn, operators =>
    if isNumChar char then
      scanLoop fuel ((char :: cs).dropWhile isNumChar)
        (rpn ++ [(char :: cs).takeWhile isNumChar]) operators
    else if isOperator char then
      scanLoop fuel cs (pushOperator char rpn operators).1 (pushOperator char rpn operators).2
    else if char = '(' then
      scanLoop fuel cs rpn (char :: operators)
    else if char = ')' then
      match (popToOpen rpn operators).2 with
      | [] => ([], some ErrBrackets)
      | _ :: rest => scanLoop fuel cs (popToOpen rpn operators).1 rest
    else if !isSpace char then ([], some ErrAllowed)
    else scanLoop fuel cs rpn operators

/-- The function `convertToRPN`. -/
def convertToRPN (expression : GoString) : List GoString × Option CalcError :=
  scanLoop expression.length expression [] []

/-- The part of `float64` and `strconv` that `calculateRPN` uses: the constant
`0`, `strconv.ParseFloat(elem, 64)` (`none` when it returns an error), the four
operations and the comparison `b == 0`. -/
structure FloatOps (α : Type) where
  zero : α
  parseFloat : GoString → Option α
  add : α → α → α
  sub : α → α → α
  mul : α → α → α
  div : α → α → α
  isZero : α → Bool

/-- The loop of `calculateRPN` with the final test on the stack. -/
def calcLoop {α : Type} (F : FloatOps α) : List GoString → List α → α × Option CalcError
  | [], stack =>
    match stack with
    | [v] => (v, none)
    | _ => (F.zero, some ErrValues)
  | elem :: rest, stack =>
    if elem = ['+'] ∨ elem = ['-'] ∨ elem = ['*'] ∨ elem = ['/'] then
      match stack with
      | b :: a :: below =>
        if elem = ['+'] then calcLoop F rest (F.add a b :: below)
        else if elem = ['-'] then calcLoop F rest (F.sub a b :: below)
        else if elem = ['*'] then calcLoop F rest (F.mul a b :: below)
        else if F.isZero b then (F.zero, some ErrDivisionByZero)
        else calcLoop F rest (F.div a b :: below)
      | _ => (F.zero, some ErrValues)
    else
      match F.parseFloat elem with
      | none => (F.zero, some ErrAllowed)
      | some value => calcLoop F rest (value :: stack)

/-- The function `calculateRPN`. -/
def calculateRPN {α : Type} (F : FloatOps α) (rpn : List GoString) : α × Option CalcError :=
  calcLoop F rpn []

/-- The function `Calc`. -/
def Calc {α : Type} (F : FloatOps α) (expression : GoString) : α × Option CalcError :=
  match convertToRPN expression with
  | (_, some err) => (F.zero, err)
  | (rpn, none) => calculateRPN F rpn

/-- A number of the expression grammar: digits with at most one `'.'` and at
least one digit. -/
def isNumber (s : GoString) : Bool :=
  s.all isNumChar && s.any isDigit && decide (s.count '.' ≤ 1)

/-! ## IEEE-754 binary64 -/

/-- A `float64` value.  A finite value is `±k · 2^(-1074)`: every finite
binary64 number is a multiple of the smallest subnormal, which makes the
representation unique. -/
inductive F64 where
  | nan
  | inf (neg : Bool)
  | fin (neg : Bool) (k : Nat)
  deriving DecidableEq

namespace F64

/-- Round `n / d` to the nearest integer, ties to even. -/
def rne (n d : Nat) : Nat :=
  if 2 * (n % d) > d ∨ (2 * (n % d) = d ∧ (n / d) % 2 = 1) then n / d + 1 else n / d

/-- The number of binary digits of `n`; the first argument bounds the
recursion and `n` itself is always enough. -/
def bitLen : Nat → Nat → Nat
  | 0, _ => 0
  | fuel + 1, n => if n = 0 then 0 else bitLen fuel (n / 2) + 1

/-- Round the non-negative rational `n / d`, counted in units of `2^(-1074)`,
to the nearest multiple of the unit that has a 53-bit significand. -/
def roundUnits (n d : Nat) : Nat :=
  if n / d < 2 ^ 53 then rne n d
  else rne n (d * 2 ^ (bitLen (n / d) (n / d) - 53)) * 2 ^ (bitLen (n / d) (n / d) - 53)

/-- The float with sign `neg` nearest to `n / d` units; magnitudes that round
to `2^1024` or more become an infinity. -/
def ofUnits (neg : Bool) (n d : Nat) : F64 :=
  if roundUnits n d < 2 ^ 2098 then fin neg (roundUnits n d) else inf neg

/-- The float nearest to the natural number `n`. -/
def ofNat (n : Nat) : F64 := ofUnits false (n * 2 ^ 1074) 1

/-- The opposite float. -/
def negate : F64 → F64
  | nan => nan
  | inf s => inf (!s)
  | fin s k => fin (!s) k

/-- The sum `x + y`, rounded to nearest, ties to even; a sum of opposite finite
numbers is `+0`. -/
def add : F64 → F64 → F64
  | nan, _ => nan
  | _, nan => nan
  | inf s, inf t => if s = t then inf s else nan
  | inf s, fin _ _ => inf s
  | fin _ _, inf t => inf t
  | fin s a, fin t b =>
    if s = t then ofUnits s (a + b) 1
    else if a = b then fin false 0
    else if b < a then ofUnits s (a - b) 1
    else ofUnits t (b - a) 1

/-- The difference `x - y`. -/
def sub (x y : F64) : F64 := add x (negate y)

/-- The product `x * y`, rounded to nearest, ties to even. -/
def mul : F64 → F64 → F64
  | nan, _ => nan
  | _, nan => nan
  | inf s, inf t => inf (s != t)
  | inf s, fin t b => if b = 0 then nan else inf (s != t)
  | fin s a, inf t => if a = 0 then nan else inf (s != t)
  | fin s a, fin t b => ofUnits (s != t) (a * b) (2 ^ 1074)

/-- The quotient `x / y`, rounded to nearest, ties to even. -/
def div : F64 → F64 → F64
  | nan, _ => nan
  | _, nan => nan
  | inf _, inf _ => nan
  | inf s, fin t _ => inf (s != t)
  | fin s _, inf t => fin (s != t) 0
  | fin s a, fin t b =>
    if b = 0 then (if a = 0 then nan else inf (s != t))
    else ofUnits (s != t) (a * 2 ^ 1074) b

/-- The comparison `b == 0`: true for both zeros, false for NaN. -/
def isZero : F64 → Bool
  | fin _ 0 => true
  | _ => false

/-- The value of a run of decimal digits. -/
def digitsValue (s : GoString) : Nat :=
  s.foldl (fun acc c => 10 * acc + (c.toNat - '0'.toNat)) 0

/-- The float nearest to the number that a string of digits with at most one
`'.'` denotes: the digits read as an integer, divided by ten to the number of
digits after the `'.'`. -/
def decimal (s : GoString) : F64 :=
  ofUnits false (digitsValue (s.filter isDigit) * 2 ^ 1074)
    (10 ^ ((s.dropWhile isDigit).filter isDigit).length)

/-- `strconv.ParseFloat(s, 64)` on a string of digits and `'.'`, the only
strings `convertToRPN` hands to it: a syntax error unless there is at least
one digit and at most one `'.'`; otherwise the nearest float, except that a
well-formed `s` more than half a unit in the last place beyond the largest
float gives an infinity together with the error `ErrRange`.  The result is
`none` whenever the library returns an error.  Other strings are outside this
model and are answered with `none`. -/
def parseFloat (s : GoString) : Option F64 :=
  if isNumber s then
    match decimal s with
    | fin neg k => some (fin neg k)
    | _ => none
  else none

end F64

/-- The `float64` instance of `FloatOps`. -/
def go64 : FloatOps F64 where
  zero := F64.fin false 0
  parseFloat := F64.parseFloat
  add := F64.add
  sub := F64.sub
  mul := F64.mul
  div := F64.div
  isZero := F64.isZero

/-! ## Notions used in the statements -/

/-- The scan of `convertToRPN` from an arbitrary point: the rest of the input,
the output so far and the operator stack. -/
def scan (s : GoString) (rpn : List GoString) (ops : List Char) :
    List GoString × Option CalcError :=
  scanLoop s.length s rpn ops

/-- The characters the scanner accepts. -/
def isAllowed (c : Char) : Bool :=
  isNumChar c || isOperator c || c = '(' || c = ')' || isSpace c

/-- The error the scan meets first, read off the characters alone: `depth` is
the number of `'('` that are open. -/
def scanErr : Nat → GoString → Option CalcError
  | depth, [] => if depth = 0 then none else some ErrBrackets
  | depth, c :: cs =>
    if c = '(' then scanErr (depth + 1) cs
    else if c = ')' then (if depth = 0 then some ErrBrackets else scanErr (depth - 1) cs)
    else if isAllowed c then scanErr depth cs
    else some ErrAllowed


/-- No prefix of `s` closes more brackets than `depth` plus the number it has
opened. -/
def PrefixOK (depth : Nat) (s : GoString) : Prop :=
  ∀ k : Nat, (s.take k).count ')' ≤ depth + (s.take k).count '('

/-- Balanced brackets: every prefix has at least as many `'('` as `')'` and the
totals are equal. -/
def Balanced (s : GoString) : Prop :=
  (∀ k : Nat, (s.take k).count ')' ≤ (s.take k).count '(') ∧ s.count '(' = s.count ')'

/-- A cut between `p` and `q` that lies inside a number: `p` ends and `q`
starts with a digit or `'.'`. -/
def splitsNumber (p q : GoString) : Bool :=
  p.getLast?.any isNumChar && q.head?.any isNumChar

/-- `WsRel s t`: `t` comes from `s` by inserting and deleting whitespace
characters, never at a cut that lies inside a number. -/
inductive WsRel : GoString → GoString → Prop
  | refl (s : GoString) : WsRel s s
  | insert (s p q : GoString) (w : Char) :
      WsRel s (p ++ q) → isSpace w = true → splitsNumber p q = false → WsRel s (p ++ w :: q)
  | delete (s p q : GoString) (w : Char) :
      WsRel s (p ++ w :: q) → isSpace w = true → splitsNumber p q = false → WsRel s (p ++ q)

/-- The `case "+", "-", "*", "/"` test of `calculateRPN`. -/
def isOpToken (t : GoString) : Bool :=
  decide (t = ['+'] ∨ t = ['-'] ∨ t = ['*'] ∨ t = ['/'])

/-- One iteration of the loop of `calculateRPN`: the new stack, or the error
the iteration returns. -/
def stepStack {α : Type} (F : FloatOps α) (stack : List α) (elem : GoString) :
    Except CalcError (List α) :=
  if elem = ['+'] ∨ elem = ['-'] ∨ elem = ['*'] ∨ elem = ['/'] then
    match stack with
    | b :: a :: below =>
      if elem = ['+'] then .ok (F.add a b :: below)
      else if elem = ['-'] then .ok (F.sub a b :: below)
      else if elem = ['*'] then .ok (F.mul a b :: below)
      else if F.isZero b then .error ErrDivisionByZero
      else .ok (F.div a b :: below)
    | _ => .error ErrValues
  else
    match F.parseFloat elem with
    | none => .error ErrAllowed
    | some value => .ok (value :: stack)

/-- The iterations of the loop of `calculateRPN` over a sequence, without the
final test: the stack they leave, or the first error. -/
def runStack {α : Type} (F : FloatOps α) : List GoString → List α → Except CalcError (List α)
  | [], stack => .ok stack
  | elem :: rest, stack =>
    match stepStack F stack elem with
    | .ok stack' => runStack F rest stack'
    | .error e => .error e

/-- The number of operator elements of a sequence. -/
def opCount (l : List GoString) : Nat := l.countP isOpToken

/-- The number of elements of a sequence that are not operators. -/
def litCount (l : List GoString) : Nat := l.countP (fun t => !isOpToken t)

/-- Operand sufficiency, with `n` values already on the stack: before every
operator the literals seen exceed the operators seen by at least two, and at
the end the literals are one more than the operators. -/
def ShapeFrom (n : Nat) (rpn : List GoString) : Prop :=
  (∀ (pre : List GoString) (t : GoString) (post : List GoString), rpn = pre ++ t :: post →
      isOpToken t = true → opCount pre + 2 ≤ n + litCount pre)
    ∧ n + litCount rpn = opCount rpn + 1

/-- Operand sufficiency of a whole postfix sequence. -/
def OperandShape (rpn : List GoString) : Prop :=
  (∀ (pre : List GoString) (t : GoString) (post : List GoString), rpn = pre ++ t :: post →
      isOpToken t = true → opCount pre + 2 ≤ litCount pre)
    ∧ litCount rpn = opCount rpn + 1

/-! ## The infix grammar -/

/-- An arithmetic expression: a number literal or a binary operation.
Parentheses only group and leave no node. -/
inductive Expr where
  | num (lit : GoString)
  | bin (op : Char) (left right : Expr)

/-- The operation that the inner `switch` of `calculateRPN` selects. -/
def applyOp {α : Type} (F : FloatOps α) (op : Char) (a b : α) : α :=
  if op = '+' then F.add a b
  else if op = '-' then F.sub a b
  else if op = '*' then F.mul a b
  else F.div a b

namespace Expr

/-- The postfix form: each operator after its two operands. -/
def post : Expr → List GoString
  | num lit => [lit]
  | bin op l r => post l ++ post r ++ [[op]]

/-- The number literals of an expression, left to right. -/
def literals : Expr → List GoString
  | num lit => [lit]
  | bin _ l r => literals l ++ literals r

/-- The value under the usual semantics, computed with the `float64`
operations; a literal stands for the float `ParseFloat` gives it. -/
def value {α : Type} (F : FloatOps α) : Expr → α
  | num lit => (F.parseFloat lit).getD F.zero
  | bin op l r => applyOp F op (value F l) (value F r)

/-- Some division has a right operand whose value is zero. -/
def hasZeroDivisor {α : Type} (F : FloatOps α) : Expr → Bool
  | num _ => false
  | bin op l r =>
    hasZeroDivisor F l || hasZeroDivisor F r || (decide (op = '/') && F.isZero (value F r))

/-- Every number literal is accepted by `ParseFloat`. -/
def litsParse {α : Type} (F : FloatOps α) (e : Expr) : Bool :=
  e.literals.all (fun lit => (F.parseFloat lit).isSome)

/-- The literals are numbers of the grammar and the operators are among
`+ - * /`. -/
def wellTokened : Expr → Bool
  | num lit => isNumber lit
  | bin op l r => isOperator op && wellTokened l && wellTokened r

end Expr

/-- `Gen level e s`: the text `s` derives the expression `e` at the grammar
level `level`, where 1 is `E ::= T | E+T | E-T`, 2 is `T ::= F | T*F | T/F` and
3 is `F ::= number | (E)`; the level of a binary rule is the priority of its
operator.  Whitespace may precede every token. -/
inductive Gen : Nat → Expr → GoString → Prop
  | number (w lit : GoString) :
      (∀ c ∈ w, isSpace c = true) → isNumber lit = true → Gen 3 (.num lit) (w ++ lit)
  | parens (w : GoString) (e : Expr) (s w' : GoString) :
      (∀ c ∈ w, isSpace c = true) → Gen 1 e s → (∀ c ∈ w', isSpace c = true) →
      Gen 3 e (w ++ '(' :: (s ++ (w' ++ [')'])))
  | up (level : Nat) (e : Expr) (s : GoString) :
      1 ≤ level → Gen (level + 1) e s → Gen level e s
  | binary (op : Char) (l : Expr) (s w : GoString) (r : Expr) (t : GoString) :
      isOperator op = true → Gen (priority op) l s → (∀ c ∈ w, isSpace c = true) →
      Gen (priority op + 1) r t → Gen (priority op) (.bin op l r) (s ++ (w ++ op :: t))

/-- A well-formed infix expression: a text derived at level `E`, possibly
followed by whitespace. -/
def WellFormed (e : Expr) (s : GoString) : Prop :=
  ∃ (t w : GoString), Gen 1 e t ∧ (∀ c ∈ w, isSpace c = true) ∧ s = t ++ w

/-! ## Chains of operators of one priority -/

/-- A numeric token as the scanner cuts it: a non-empty run of digits and
`'.'`. -/
def isRun (n : GoString) : Bool :=
  !n.isEmpty && n.all isNumChar

/-- The text `n0 op1 n1 op2 n2 ... opk nk`, written without whitespace; every
link carries its operator, its literal and the value of the literal. -/
def chainText {α : Type} : GoString → List (Char × GoString × α) → GoString
  | n0, [] => n0
  | n0, (op, n, _) :: rest => n0 ++ op :: chainText n rest

/-- The elements `n1, op1, n2, op2, ..., nk, opk`. -/
def chainOut {α : Type} : List (Char × GoString × α) → List GoString
  | [] => []
  | (op, n, _) :: rest => n :: [op] :: chainOut rest

/-- The left fold `(((v0 op1 v1) op2 v2) ... opk vk)`. -/
def chainValue {α : Type} (F : FloatOps α) (v0 : α) (tail : List (Char × GoString × α)) : α :=
  tail.foldl (fun acc link => applyOp F link.1 acc link.2.2) v0

/-! ## The scan step by step -/

/-- One iteration of the scanning loop of `convertToRPN` on the character
`char` followed by `cs`: the input, output and operator stack that the next
iteration starts from, or the error the iteration returns. -/
def scanStep (char : Char) (cs : GoString) (rpn : List GoString) (operators : List Char) :
    Except CalcError (GoString × List GoString × List Char) :=
  if isNumChar char then
    .ok ((char :: cs).dropWhile isNumChar, rpn ++ [(char :: cs).takeWhile isNumChar], operators)
  else if isOperator char then
    .ok (cs, (pushOperator char rpn operators).1, (pushOperator char rpn operators).2)
  else if char = '(' then
    .ok (cs, rpn, char :: operators)
  else if char = ')' then
    match (popToOpen rpn operators).2 with
    | [] => .error ErrBrackets
    | _ :: rest => .ok (cs, (popToOpen rpn operators).1, rest)
  else if !isSpace char then .error ErrAllowed
  else .ok (cs, rpn, operators)

/-- The state of the scan after `k` iterations of the loop: the rest of the
input, the output and the operator stack; `none` when the loop has ended or
failed before. -/
def stateAfter : Nat → GoString × List GoString × List Char →
    Option (GoString × List GoString × List Char)
  | 0, state => some state
  | _ + 1, ([], _, _) => none
  | k + 1, (char :: cs, rpn, operators) =>
    match scanStep char cs rpn operators with
    | .ok state => stateAfter k state
    | .error _ => none

/-- The operators of a stack from its top down to the next `'('`, or to the
bottom when there is none. -/
def segment (stack : List Char) : List Char :=
  stack.takeWhile (fun c => c != '(')

/-- The invariant of the operator stack `ops` after the scan has consumed the
prefix `pre`: only operators and `'('` on the stack, as many `'('` as the
prefix has opened and not closed, and strictly decreasing priority from the
top of every segment to its bottom. -/
def StackInv (pre : GoString) (ops : List Char) : Prop :=
  (∀ c ∈ ops, isOperator c = true ∨ c = '(')
    ∧ ops.count '(' + pre.count ')' = pre.count '('
    ∧ ∀ above below : List Char, ops = above ++ below →
        (segment below).Pairwise (fun a b => priority b < priority a)

/-! ## The tokens of an expression -/

/-- The maximal runs of digits and `'.'` of `s`, in order; `cur` is the run
that is being read. -/
def runsAux : GoString → GoString → List GoString
  | [], cur => if cur.isEmpty then [] else [cur]
  | c :: cs, cur =>
    if isNumChar c then runsAux cs (cur ++ [c])
    else if cur.isEmpty then runsAux cs []
    else cur :: runsAux cs []

/-- The maximal runs of digits and `'.'` of an expression, in source order. -/
def numRuns (s : GoString) : List GoString := runsAux s []

/-- The operator characters of an expression, in source order, each as the
one-character string that `convertToRPN` emits for it. -/
def opTokens (s : GoString) : List GoString :=
  (s.filter isOperator).map (fun c => [c])

/-! ## The HTTP handler of `internal/application`

A request is given by its method and by what `json.NewDecoder(r.Body).Decode`
makes of its body: the field `Expression`, or `none` when `Decode` returns an
error.  A response is given by its status code and by the JSON object that its
body holds. -/

/-- The text of an error value of `errors.go`, as `err.Error()` returns it. -/
def CalcError.message : CalcError → String
  | .ErrBrackets => "Неверно. Количество скобок не совпадает"
  | .ErrValues => "Неверно. Недостаточно значений"
  | .ErrDivisionByZero => "Неверно. Деление на ноль"
  | .ErrAllowed => "Недопустимо. Допускаются только числа и ( ) + - * /"

/-- An `error` as the `switch` of `CalcHandler` sees it: one of the four values
of package `calculation`, or any other error. -/
inductive GoError where
  | calc (e : CalcError)
  | other (text : String)

/-- The struct `Response`. -/
structure Response where
  Result : F64
  Error : String

/-- A JSON value of the kinds the handler writes. -/
inductive JsonValue where
  | number (v : F64)
  | string (text : String)
  deriving DecidableEq

/-- `json.NewEncoder(w).Encode` on a `Response`: the fields of the object it
writes.  Both fields carry the tag `omitempty`, so `result` is left out when
`Result` is zero and `error` when `Error` is empty; `none` when `Encode`
returns an error and writes nothing, as it does for a NaN or an infinity. -/
def encodeResponse (r : Response) : Option (List (String × JsonValue)) :=
  match r.Result with
  | .fin _ k =>
    some ((if k = 0 then [] else [("result", JsonValue.number r.Result)])
      ++ (if r.Error = "" then [] else [("error", JsonValue.string r.Error)]))
  | _ => none

/-- What the handler has sent when it returns: the status code, 200 unless
`WriteHeader` was called, and the JSON object of the body, `none` when nothing
was written. -/
structure HttpResponse where
  status : Nat
  body : Option (List (String × JsonValue))
  deriving DecidableEq

/-- The `switch err` of `CalcHandler`: 422 with the text of the error for the
four values of package `calculation`, 500 for any other error. -/
def errorResponse : GoError → HttpResponse
  | .calc e => ⟨422, encodeResponse ⟨go64.zero, e.message⟩⟩
  | .other _ => ⟨500, encodeResponse ⟨go64.zero, "Внутренняя ошибка сервера"⟩⟩

/-- The function `CalcHandler`. -/
def CalcHandler (method : String) (decoded : Option GoString) : HttpResponse :=
  if method = "POST" then
    match decoded with
    | none => ⟨400, some [("error", JsonValue.string "Плохой запрос")]⟩
    | some expression =>
      match Calc go64 expression with
      | (_, some err) => errorResponse (.calc err)
      | (result, none) => ⟨200, encodeResponse ⟨result, ""⟩⟩
  else ⟨405, some [("error", JsonValue.string "разрешен только метод POST")]⟩
/-! ## The scanning loop without its iteration bound -/

theorem scanLoop_fuel (n : Nat) : ∀ (m : Nat) (s : GoString) (rpn : List GoString)
    (ops : List Char), s.length ≤ n → s.length ≤ m →
    scanLoop n s rpn ops = scanLoop m s rpn ops := by
  induction n with
  | zero =>
    intro m s rpn ops hn _
    have : s = [] := List.length_eq_zero.mp (Nat.le_zero.mp hn)
    subst this
    cases m <;> simp [scanLoop]
  | succ n ih =>
    intro m s rpn ops hn hm
    cases s with
    | nil => cases m <;> simp [scanLoop]
    | cons c cs =>
      cases m with
      | zero => simp at hm
      | succ m =>
        have hcn : cs.length ≤ n := by simpa using hn
        have hcm : cs.length ≤ m := by simpa using hm
        have hdrop : (List.dropWhile isNumChar cs).length ≤ cs.length :=
          (List.dropWhile_sublist _).length_le
        simp only [scanLoop]
        split
        · rename_i hc
          simp only [List.dropWhile_cons, hc, if_true]
          exact ih m _ _ _ (le_trans hdrop hcn) (le_trans hdrop hcm)
        · split
          · exact ih m _ _ _ hcn hcm
          · split
            · exact ih m _ _ _ hcn hcm
            · split
              · split
                · rfl
                · exact ih m _ _ _ hcn hcm
              · split
                · rfl
                · exact ih m _ _ _ hcn hcm

theorem convertToRPN_eq_scan (s : GoString) : convertToRPN s = scan s [] [] := rfl

theorem scan_nil (rpn : List GoString) (ops : List Char) : scan [] rpn ops = drain rpn ops := by
  simp [scan, scanLoop]

theorem scan_num (c : Char) (cs : GoString) (rpn : List GoString) (ops : List Char)
    (hc : isNumChar c = true) :
    scan (c :: cs) rpn ops
      = scan (cs.dropWhile isNumChar) (rpn ++ [c :: cs.takeWhile isNumChar]) ops := by
  have hdrop : (List.dropWhile isNumChar cs).length ≤ cs.length :=
    (List.dropWhile_sublist _).length_le
  simp only [scan, List.length_cons, scanLoop, hc, if_true, List.dropWhile_cons,
    List.takeWhile_cons]
  exact scanLoop_fuel _ _ _ _ _ hdrop le_rfl

theorem scan_operator (c : Char) (cs : GoString) (rpn : List GoString) (ops : List Char)
    (hc : isOperator c = true) :
    scan (c :: cs) rpn ops
      = scan cs (pushOperator c rpn ops).1 (pushOperator c rpn ops).2 := by
  have hn : isNumChar c = false := by
    simp only [isOperator, Bool.or_eq_true, decide_eq_true_eq] at hc
    rcases hc with ((h | h) | h) | h <;> subst h <;> decide
  simp [scan, scanLoop, hn, hc]

theorem scan_open (cs : GoString) (rpn : List GoString) (ops : List Char) :
    scan ('(' :: cs) rpn ops = scan cs rpn ('(' :: ops) := by
  simp [scan, scanLoop, show isNumChar '(' = false by decide,
    show isOperator '(' = false by decide]

theorem scan_close (cs : GoString) (rpn : List GoString) (ops : List Char) :
    scan (')' :: cs) rpn ops
      = match (popToOpen rpn ops).2 with
        | [] => ([], some ErrBrackets)
        | _ :: rest => scan cs (popToOpen rpn ops).1 rest := by
  simp only [scan, List.length_cons, scanLoop, show isNumChar ')' = false by decide,
    show isOperator ')' = false by decide, show ¬ (')' = '(') by decide, if_false, if_true]
  simp

theorem isSpace_not_numChar {c : Char} (h : isSpace c = true) : isNumChar c = false := by
  simp only [isSpace, Bool.or_eq_true, decide_eq_true_eq] at h
  have hd : c ≠ '.' := by
    rintro rfl
    revert h
    decide
  simp only [isNumChar, isDigit, Bool.or_eq_false_iff, decide_eq_false_iff_not, not_and, not_le]
  refine ⟨?_, hd⟩
  intro h1
  have e0 : '0'.toNat = 48 := by decide
  have e9 : '9'.toNat = 57 := by decide
  omega

theorem isSpace_not_operator {c : Char} (h : isSpace c = true) : isOperator c = false := by
  cases hop : isOperator c with
  | false => rfl
  | true =>
    simp only [isOperator, Bool.or_eq_true, decide_eq_true_eq] at hop
    rcases hop with ((h1 | h1) | h1) | h1 <;> subst h1 <;> revert h <;> decide

theorem isSpace_ne_open {c : Char} (h : isSpace c = true) : c ≠ '(' := by
  rintro rfl
  revert h
  decide

theorem isSpace_ne_close {c : Char} (h : isSpace c = true) : c ≠ ')' := by
  rintro rfl
  revert h
  decide

theorem scan_space (c : Char) (cs : GoString) (rpn : List GoString) (ops : List Char)
    (hc : isSpace c = true) : scan (c :: cs) rpn ops = scan cs rpn ops := by
  simp [scan, scanLoop, isSpace_not_numChar hc, isSpace_not_operator hc,
    isSpace_ne_open hc, isSpace_ne_close hc, hc]

theorem scan_disallowed (c : Char) (cs : GoString) (rpn : List GoString) (ops : List Char)
    (hc : isAllowed c = false) : scan (c :: cs) rpn ops = ([], some ErrAllowed) := by
  simp only [isAllowed, Bool.or_eq_false_iff, decide_eq_false_iff_not] at hc
  obtain ⟨⟨⟨⟨h1, h2⟩, h3⟩, h4⟩, h5⟩ := hc
  simp [scan, scanLoop, h1, h2, h3, h4, h5]

/-! ## Brackets and disallowed characters -/

theorem priority_operator {c : Char} (h : isOperator c = true) : 1 ≤ priority c := by
  simp only [isOperator, Bool.or_eq_true, decide_eq_true_eq] at h
  rcases h with ((h | h) | h) | h <;> subst h <;> decide

theorem isOperator_ne_open {c : Char} (h : isOperator c = true) : c ≠ '(' := by
  rintro rfl
  revert h
  decide

theorem pushOperator_count (op : Char) (hop : isOperator op = true) :
    ∀ (ops : List Char) (rpn : List GoString),
      (pushOperator op rpn ops).2.count '(' = ops.count '(' := by
  intro ops
  induction ops with
  | nil =>
    intro rpn
    simp [pushOperator, List.count_cons, isOperator_ne_open hop]
  | cons top rest ih =>
    intro rpn
    simp only [pushOperator]
    split
    · rename_i h
      have htop : top ≠ '(' := by
        rintro rfl
        have := priority_operator hop
        have h0 : priority '(' = 0 := by decide
        omega
      rw [ih, List.count_cons_of_ne htop.symm]
    · rw [List.count_cons_of_ne (isOperator_ne_open hop).symm]

theorem popToOpen_nil_iff : ∀ (ops : List Char) (rpn : List GoString),
    (popToOpen rpn ops).2 = [] ↔ ops.count '(' = 0 := by
  intro ops
  induction ops with
  | nil => intro rpn; simp [popToOpen]
  | cons top rest ih =>
    intro rpn
    simp only [popToOpen]
    by_cases h : top = '('
    · subst h
      simp
    · simp only [ne_eq, h, not_false_eq_true, if_true]
      rw [ih, List.count_cons_of_ne (Ne.symm h)]

theorem popToOpen_cons : ∀ (ops : List Char) (rpn : List GoString) (x : Char) (rest : List Char),
    (popToOpen rpn ops).2 = x :: rest → rest.count '(' + 1 = ops.count '(' := by
  intro ops
  induction ops with
  | nil => intro rpn x rest h; simp [popToOpen] at h
  | cons top tl ih =>
    intro rpn x rest h
    simp only [popToOpen] at h
    by_cases ht : top = '('
    · subst ht
      simp only [ne_eq, not_true_eq_false, if_false, List.cons.injEq] at h
      obtain ⟨_, rfl⟩ := h
      simp
    · simp only [ne_eq, ht, not_false_eq_true, if_true] at h
      rw [List.count_cons_of_ne (Ne.symm ht)]
      exact ih _ _ _ h

theorem drain_err : ∀ (ops : List Char) (rpn : List GoString),
    (drain rpn ops).2 = (if ops.count '(' = 0 then none else some ErrBrackets)
      ∧ ((drain rpn ops).2 ≠ none → (drain rpn ops).1 = []) := by
  intro ops
  induction ops with
  | nil => intro rpn; simp [drain]
  | cons top rest ih =>
    intro rpn
    simp only [drain]
    by_cases h : top = '('
    · subst h
      simp
    · simp only [h, if_false]
      rw [List.count_cons_of_ne (Ne.symm h)]
      exact ih _

theorem scanErr_skip {c : Char} (h1 : c ≠ '(') (h2 : c ≠ ')') (h3 : isAllowed c = true)
    (depth : Nat) (cs : GoString) : scanErr depth (c :: cs) = scanErr depth cs := by
  simp [scanErr, h1, h2, h3]

theorem isNumChar_ne_open {c : Char} (h : isNumChar c = true) : c ≠ '(' := by
  rintro rfl
  revert h
  decide

theorem isNumChar_ne_close {c : Char} (h : isNumChar c = true) : c ≠ ')' := by
  rintro rfl
  revert h
  decide

theorem scanErr_dropWhile (depth : Nat) : ∀ cs : GoString,
    scanErr depth (cs.dropWhile isNumChar) = scanErr depth cs := by
  intro cs
  induction cs with
  | nil => rfl
  | cons c cs ih =>
    by_cases h : isNumChar c = true
    · rw [List.dropWhile_cons_of_pos h, ih,
        scanErr_skip (isNumChar_ne_open h) (isNumChar_ne_close h) (by simp [isAllowed, h])]
    · rw [List.dropWhile_cons_of_neg h]

/-- The error of the scan, and the empty output that comes with an error, in
terms of the characters. -/
theorem scan_err (n : Nat) : ∀ (s : GoString) (rpn : List GoString) (ops : List Char),
    s.length ≤ n →
    (scan s rpn ops).2 = scanErr (ops.count '(') s
      ∧ ((scan s rpn ops).2 ≠ none → (scan s rpn ops).1 = []) := by
  induction n with
  | zero =>
    intro s rpn ops hn
    have : s = [] := List.length_eq_zero.mp (Nat.le_zero.mp hn)
    subst this
    rw [scan_nil]
    exact drain_err ops rpn
  | succ n ih =>
    intro s rpn ops hn
    cases s with
    | nil => rw [scan_nil]; exact drain_err ops rpn
    | cons c cs =>
      have hcn : cs.length ≤ n := by simpa using hn
      by_cases hnum : isNumChar c = true
      · have hdrop : (List.dropWhile isNumChar cs).length ≤ n :=
          le_trans (List.dropWhile_sublist _).length_le hcn
        rw [scan_num c cs rpn ops hnum,
          scanErr_skip (isNumChar_ne_open hnum) (isNumChar_ne_close hnum)
            (by simp [isAllowed, hnum]),
          ← scanErr_dropWhile]
        exact ih _ _ _ hdrop
      · by_cases hop : isOperator c = true
        · rw [scan_operator c cs rpn ops hop,
            scanErr_skip (isOperator_ne_open hop)
              (by rintro rfl; revert hop; decide) (by simp [isAllowed, hop]),
            ← pushOperator_count c hop ops rpn]
          exact ih _ _ _ hcn
        · by_cases ho : c = '('
          · subst ho
            rw [scan_open]
            have := ih cs rpn ('(' :: ops) hcn
            simpa [scanErr] using this
          · by_cases hc : c = ')'
            · subst hc
              rw [scan_close]
              cases hp : (popToOpen rpn ops).2 with
              | nil =>
                have h0 := (popToOpen_nil_iff ops rpn).mp hp
                simp [scanErr, h0]
              | cons x rest =>
                have h1 := popToOpen_cons ops rpn x rest hp
                have h2 := ih cs (popToOpen rpn ops).1 rest hcn
                have h3 : ops.count '(' ≠ 0 := by omega
                have h4 : ops.count '(' - 1 = rest.count '(' := by omega
                simpa [scanErr, h3, h4] using h2
            · by_cases hs : isSpace c = true
              · rw [scan_space c cs rpn ops hs, scanErr_skip ho hc (by simp [isAllowed, hs])]
                exact ih _ _ _ hcn
              · have hall : isAllowed c = false := by
                  simp [isAllowed, hnum, hop, ho, hc, hs]
                rw [scan_disallowed c cs rpn ops hall]
                simp [scanErr, ho, hc, hall]

theorem convertToRPN_err (s : GoString) :
    (convertToRPN s).2 = scanErr 0 s
      ∧ ((convertToRPN s).2 ≠ none → (convertToRPN s).1 = []) := by
  have := scan_err s.length s [] [] le_rfl
  simpa [convertToRPN_eq_scan] using this

/-- On an error of the converter `Calc` returns `0` and that error. -/
theorem Calc_of_convert_err {α : Type} (F : FloatOps α) (s : GoString) (e : CalcError)
    (h : (convertToRPN s).2 = some e) : Calc F s = (F.zero, some e) := by
  unfold Calc
  split
  · rename_i r err heq
    rw [heq] at h
    simp only [Option.some.injEq] at h
    rw [h]
  · rename_i r heq
    rw [heq] at h
    simp at h

theorem Calc_of_convert_ok {α : Type} (F : FloatOps α) (s : GoString) (rpn : List GoString)
    (h : convertToRPN s = (rpn, none)) : Calc F s = calculateRPN F rpn := by
  unfold Calc
  rw [h]


/-! ## Claims on brackets, disallowed characters and empty input -/

theorem prefixOK_nil (depth : Nat) : PrefixOK depth [] := by
  intro k
  simp

theorem prefixOK_open (depth : Nat) (p : GoString) :
    PrefixOK depth ('(' :: p) ↔ PrefixOK (depth + 1) p := by
  constructor
  · intro h k
    have := h (k + 1)
    simp only [List.take_succ_cons, List.count_cons_self,
      List.count_cons_of_ne (show ')' ≠ '(' by decide)] at this
    omega
  · intro h k
    cases k with
    | zero => simp
    | succ k =>
      have := h k
      simp only [List.take_succ_cons, List.count_cons_self,
        List.count_cons_of_ne (show ')' ≠ '(' by decide)]
      omega

theorem prefixOK_close (depth : Nat) (p : GoString) :
    PrefixOK depth (')' :: p) ↔ 0 < depth ∧ PrefixOK (depth - 1) p := by
  constructor
  · intro h
    have h1 := h 1
    simp only [List.take_succ_cons, List.take_zero, List.count_cons_self, List.count_nil,
      List.count_cons_of_ne (show '(' ≠ ')' by decide)] at h1
    refine ⟨by omega, ?_⟩
    intro k
    have := h (k + 1)
    simp only [List.take_succ_cons, List.count_cons_self,
      List.count_cons_of_ne (show '(' ≠ ')' by decide)] at this
    omega
  · rintro ⟨hd, h⟩ k
    cases k with
    | zero => simp
    | succ k =>
      have := h k
      simp only [List.take_succ_cons, List.count_cons_self,
        List.count_cons_of_ne (show '(' ≠ ')' by decide)]
      omega

theorem prefixOK_other (depth : Nat) (c : Char) (p : GoString) (h1 : c ≠ '(') (h2 : c ≠ ')') :
    PrefixOK depth (c :: p) ↔ PrefixOK depth p := by
  constructor
  · intro h k
    have := h (k + 1)
    simpa only [List.take_succ_cons, List.count_cons_of_ne h1.symm,
      List.count_cons_of_ne h2.symm] using this
  · intro h k
    cases k with
    | zero => simp
    | succ k =>
      have := h k
      simpa only [List.take_succ_cons, List.count_cons_of_ne h1.symm,
        List.count_cons_of_ne h2.symm] using this

/-- On allowed characters the scan fails exactly on unbalanced brackets. -/
theorem scanErr_allowed : ∀ (s : GoString) (depth : Nat), (∀ c ∈ s, isAllowed c = true) →
    ((PrefixOK depth s ∧ depth + s.count '(' = s.count ')') → scanErr depth s = none)
      ∧ (¬ (PrefixOK depth s ∧ depth + s.count '(' = s.count ')') →
          scanErr depth s = some ErrBrackets) := by
  intro s
  induction s with
  | nil =>
    intro depth _
    constructor
    · rintro ⟨_, h⟩
      simp only [List.count_nil, Nat.add_zero] at h
      simp [scanErr, h]
    · intro h
      have hd : depth ≠ 0 := by
        intro h0
        exact h ⟨prefixOK_nil depth, by simp [h0]⟩
      simp [scanErr, hd]
  | cons c cs ih =>
    intro depth hall
    have hcs : ∀ x ∈ cs, isAllowed x = true := fun x hx => hall x (List.mem_cons_of_mem _ hx)
    have hc : isAllowed c = true := hall c (List.mem_cons_self _ _)
    by_cases ho : c = '('
    · subst ho
      have key : (PrefixOK depth ('(' :: cs) ∧ depth + ('(' :: cs).count '(' = ('(' :: cs).count ')')
          ↔ (PrefixOK (depth + 1) cs ∧ depth + 1 + cs.count '(' = cs.count ')') := by
        rw [prefixOK_open, List.count_cons_self,
          List.count_cons_of_ne (show ')' ≠ '(' by decide)]
        constructor <;> rintro ⟨h1, h2⟩ <;> exact ⟨h1, by omega⟩
      rw [key]
      simpa [scanErr] using ih (depth + 1) hcs
    · by_cases hcl : c = ')'
      · subst hcl
        have key : (PrefixOK depth (')' :: cs) ∧ depth + (')' :: cs).count '(' = (')' :: cs).count ')')
            ↔ (0 < depth ∧ PrefixOK (depth - 1) cs ∧ depth - 1 + cs.count '(' = cs.count ')') := by
          rw [prefixOK_close, List.count_cons_self,
            List.count_cons_of_ne (show '(' ≠ ')' by decide)]
          constructor
          · rintro ⟨⟨h0, h1⟩, h2⟩
            exact ⟨h0, h1, by omega⟩
          · rintro ⟨h0, h1, h2⟩
            exact ⟨⟨h0, h1⟩, by omega⟩
        rw [key]
        by_cases hd : depth = 0
        · subst hd
          simp [scanErr]
        · have hpos : 0 < depth := Nat.pos_of_ne_zero hd
          have := ih (depth - 1) hcs
          simp only [scanErr, show ¬ (')' = '(') by decide, if_false, if_true, hd, hpos,
            true_and]
          exact this
      · have key : (PrefixOK depth (c :: cs) ∧ depth + (c :: cs).count '(' = (c :: cs).count ')')
            ↔ (PrefixOK depth cs ∧ depth + cs.count '(' = cs.count ')') := by
          rw [prefixOK_other depth c cs ho hcl, List.count_cons_of_ne (Ne.symm ho),
            List.count_cons_of_ne (Ne.symm hcl)]
        rw [key, scanErr_skip ho hcl hc]
        exact ih depth hcs

theorem balanced_iff (s : GoString) :
    Balanced s ↔ (PrefixOK 0 s ∧ 0 + s.count '(' = s.count ')') := by
  simp [Balanced, PrefixOK]

/-- The scan fails with `ErrAllowed` exactly when a disallowed character comes
after a prefix of allowed characters in which no `')'` lacks its `'('`. -/
theorem scanErr_errAllowed_iff : ∀ (s : GoString) (depth : Nat),
    scanErr depth s = some ErrAllowed ↔
      ∃ (p : GoString) (c : Char) (q : GoString), s = p ++ c :: q ∧ isAllowed c = false
        ∧ (∀ x ∈ p, isAllowed x = true) ∧ PrefixOK depth p := by
  intro s
  induction s with
  | nil =>
    intro depth
    constructor
    · intro h
      by_cases hd : depth = 0 <;> simp [scanErr, hd] at h
    · rintro ⟨p, c, q, h, _⟩
      simp at h
  | cons x xs ih =>
    intro depth
    have split_cons : ∀ (P : Nat → GoString → Prop) (d : Nat), isAllowed x = true →
        (P d [] ) → (∀ p, P depth (x :: p) ↔ P d p) →
        ((∃ (p : GoString) (c : Char) (q : GoString), x :: xs = p ++ c :: q ∧ isAllowed c = false
            ∧ (∀ y ∈ p, isAllowed y = true) ∧ P depth p)
          ↔ ∃ (p : GoString) (c : Char) (q : GoString), xs = p ++ c :: q ∧ isAllowed c = false
            ∧ (∀ y ∈ p, isAllowed y = true) ∧ P d p) := by
      intro P d hx _ hP
      constructor
      · rintro ⟨p, c, q, heq, hc, hp, hpre⟩
        cases p with
        | nil =>
          simp only [List.nil_append, List.cons.injEq] at heq
          rw [← heq.1, hx] at hc
          exact absurd hc (by simp)
        | cons y p =>
          simp only [List.cons_append, List.cons.injEq] at heq
          obtain ⟨rfl, rfl⟩ := heq
          exact ⟨p, c, q, rfl, hc, fun z hz => hp z (List.mem_cons_of_mem _ hz),
            (hP p).mp hpre⟩
      · rintro ⟨p, c, q, heq, hc, hp, hpre⟩
        refine ⟨x :: p, c, q, by simp [heq], hc, ?_, (hP p).mpr hpre⟩
        intro z hz
        rcases List.mem_cons.mp hz with rfl | hz
        · exact hx
        · exact hp z hz
    by_cases ho : x = '('
    · subst ho
      rw [split_cons PrefixOK (depth + 1) (by decide) (prefixOK_nil _)
        (fun p => prefixOK_open depth p), ← ih (depth + 1)]
      simp [scanErr]
    · by_cases hcl : x = ')'
      · subst hcl
        by_cases hd : depth = 0
        · subst hd
          constructor
          · intro h
            simp [scanErr] at h
          · rintro ⟨p, c, q, heq, hc, hp, hpre⟩
            cases p with
            | nil =>
              simp only [List.nil_append, List.cons.injEq] at heq
              rw [← heq.1] at hc
              exact absurd hc (by decide)
            | cons y p =>
              simp only [List.cons_append, List.cons.injEq] at heq
              obtain ⟨rfl, rfl⟩ := heq
              have := (prefixOK_close 0 p).mp hpre
              omega
        · have hpos : 0 < depth := Nat.pos_of_ne_zero hd
          rw [split_cons PrefixOK (depth - 1) (by decide) (prefixOK_nil _)
            (fun p => by rw [prefixOK_close]; simp [hpos]), ← ih (depth - 1)]
          simp [scanErr, hd]
      · by_cases hx : isAllowed x = true
        · rw [split_cons PrefixOK depth hx (prefixOK_nil _)
            (fun p => prefixOK_other depth x p ho hcl), ← ih depth, scanErr_skip ho hcl hx]
        · have hx' : isAllowed x = false := by simpa using hx
          constructor
          · intro _
            exact ⟨[], x, xs, rfl, hx', by simp, prefixOK_nil _⟩
          · intro _
            simp [scanErr, ho, hcl, hx']

/-- C2. On an expression made only of allowed characters `convertToRPN`
returns without error when the brackets are balanced, and otherwise returns
`ErrBrackets` with an empty result, and so does `Calc`; `"2+(2*2"` and `"(2+2"`
give `ErrBrackets`. -/
theorem C2_brackets_decide_conversion {α : Type} (F : FloatOps α) (s : GoString)
    (hall : ∀ c ∈ s, isAllowed c = true) :
    (Balanced s → (convertToRPN s).2 = none)
      ∧ (¬ Balanced s →
          convertToRPN s = ([], some ErrBrackets) ∧ Calc F s = (F.zero, some ErrBrackets))
      ∧ Calc F "2+(2*2".toList = (F.zero, some ErrBrackets)
      ∧ Calc F "(2+2".toList = (F.zero, some ErrBrackets) := by
  have herr := convertToRPN_err s
  have hsc := scanErr_allowed s 0 hall
  rw [← balanced_iff] at hsc
  refine ⟨?_, ?_, ?_, ?_⟩
  · intro hb
    rw [herr.1]
    exact hsc.1 hb
  · intro hb
    have h2 : (convertToRPN s).2 = some ErrBrackets := by
      rw [herr.1]
      exact hsc.2 hb
    have h1 : (convertToRPN s).1 = [] := herr.2 (by rw [h2]; simp)
    exact ⟨Prod.ext h1 h2, Calc_of_convert_err F s _ h2⟩
  · exact Calc_of_convert_err F _ _ (by decide)
  · exact Calc_of_convert_err F _ _ (by decide)

theorem C2_brackets_decide_conversion_witness :
    (∀ c ∈ "(2+2".toList, isAllowed c = true) ∧ ¬ Balanced "(2+2".toList
      ∧ convertToRPN "(2+2".toList = ([], some ErrBrackets)
      ∧ Calc go64 "(2+2".toList = (go64.zero, some ErrBrackets) :=
  have hall : ∀ c ∈ "(2+2".toList, isAllowed c = true := by decide
  have hnb : ¬ Balanced "(2+2".toList := fun h => absurd h.2 (by decide)
  ⟨hall, hnb, ((C2_brackets_decide_conversion go64 "(2+2".toList hall).2.1 hnb).1,
    ((C2_brackets_decide_conversion go64 "(2+2".toList hall).2.1 hnb).2⟩

/-- C3. `convertToRPN` returns `ErrAllowed` exactly when the expression has a
disallowed character whose prefix holds only allowed characters and no `')'`
without an earlier matching `'('`, whatever follows that character; it then
returns no partial result and `Calc` returns `ErrAllowed`; `Calc("2+a")` is
`ErrAllowed`. -/
theorem C3_disallowed_character {α : Type} (F : FloatOps α) (s : GoString) :
    ((∃ (p : GoString) (c : Char) (q : GoString), s = p ++ c :: q ∧ isAllowed c = false
          ∧ (∀ x ∈ p, isAllowed x = true)
          ∧ (∀ k : Nat, (p.take k).count ')' ≤ (p.take k).count '('))
        ↔ (convertToRPN s).2 = some ErrAllowed)
      ∧ ((convertToRPN s).2 = some ErrAllowed →
          convertToRPN s = ([], some ErrAllowed) ∧ Calc F s = (F.zero, some ErrAllowed))
      ∧ ((convertToRPN s).2 = some ErrAllowed → ∃ c ∈ s, isAllowed c = false)
      ∧ Calc F "2+a".toList = (F.zero, some ErrAllowed) := by
  have herr := convertToRPN_err s
  have hiff := scanErr_errAllowed_iff s 0
  refine ⟨?_, ?_, ?_, ?_⟩
  · rw [herr.1, hiff]
    simp [PrefixOK]
  · intro h2
    have h1 : (convertToRPN s).1 = [] := herr.2 (by rw [h2]; simp)
    exact ⟨Prod.ext h1 h2, Calc_of_convert_err F s _ h2⟩
  · intro h2
    rw [herr.1, hiff] at h2
    obtain ⟨p, c, q, rfl, hc, _⟩ := h2
    exact ⟨c, by simp, hc⟩
  · exact Calc_of_convert_err F _ _ (by decide)

/-- C8. `Calc("")` returns `ErrValues`, and so does `Calc(s)` for every `s` made
only of whitespace: `convertToRPN` succeeds with the empty sequence and
`calculateRPN` rejects the empty sequence. -/
theorem C8_empty_input {α : Type} (F : FloatOps α) (s : GoString)
    (hs : ∀ c ∈ s, isSpace c = true) :
    convertToRPN s = ([], none)
      ∧ calculateRPN F [] = (F.zero, some ErrValues)
      ∧ Calc F s = (F.zero, some ErrValues)
      ∧ convertToRPN [] = ([], none)
      ∧ Calc F [] = (F.zero, some ErrValues) := by
  have hscan : ∀ (t : GoString), (∀ c ∈ t, isSpace c = true) → scan t [] [] = ([], none) := by
    intro t
    induction t with
    | nil => intro _; rw [scan_nil]; rfl
    | cons c cs ih =>
      intro h
      rw [scan_space c cs [] [] (h c (List.mem_cons_self _ _))]
      exact ih (fun x hx => h x (List.mem_cons_of_mem _ hx))
  have h1 : convertToRPN s = ([], none) := hscan s hs
  have h2 : calculateRPN F [] = (F.zero, some ErrValues) := rfl
  refine ⟨h1, h2, ?_, rfl, rfl⟩
  rw [Calc_of_convert_ok F s [] h1, h2]

theorem C8_empty_input_witness :
    (∀ c ∈ " \t ".toList, isSpace c = true)
      ∧ Calc go64 " \t ".toList = (go64.zero, some ErrValues) :=
  have hs : ∀ c ∈ " \t ".toList, isSpace c = true := by decide
  ⟨hs, (C8_empty_input go64 " \t ".toList hs).2.2.1⟩

/-! ## Whitespace -/

theorem dropWhile_of_takeWhile_nil {x : GoString} (h : x.takeWhile isNumChar = []) :
    x.dropWhile isNumChar = x := by
  have := List.takeWhile_append_dropWhile isNumChar x
  rw [h] at this
  simpa using this

/-- A maximal run of digits and `'.'` becomes one token. -/
theorem scan_run (n x : GoString) (rpn : List GoString) (ops : List Char) (hne : n ≠ [])
    (hn : ∀ c ∈ n, isNumChar c = true) (hx : x.takeWhile isNumChar = []) :
    scan (n ++ x) rpn ops = scan x (rpn ++ [n]) ops := by
  cases n with
  | nil => exact absurd rfl hne
  | cons c cs =>
    have hc : isNumChar c = true := hn c (List.mem_cons_self _ _)
    have hcs : ∀ a ∈ cs, isNumChar a = true := fun a ha => hn a (List.mem_cons_of_mem _ ha)
    rw [List.cons_append, scan_num c _ rpn ops hc, List.dropWhile_append_of_pos hcs,
      List.takeWhile_append_of_pos hcs, hx, dropWhile_of_takeWhile_nil hx, List.append_nil]

theorem scan_spaces (w x : GoString) (rpn : List GoString) (ops : List Char)
    (hw : ∀ c ∈ w, isSpace c = true) : scan (w ++ x) rpn ops = scan x rpn ops := by
  induction w with
  | nil => rfl
  | cons c cs ih =>
    rw [List.cons_append, scan_space c _ rpn ops (hw c (List.mem_cons_self _ _))]
    exact ih (fun a ha => hw a (List.mem_cons_of_mem _ ha))

theorem takeWhile_nil_of_head {x : GoString} (h : x.head?.any isNumChar = false) :
    x.takeWhile isNumChar = [] := by
  cases x with
  | nil => rfl
  | cons c cs =>
    have hc : isNumChar c = false := by simpa using h
    simp [List.takeWhile_cons, hc]

theorem splitsNumber_tail {c : Char} {p q : GoString} (h : splitsNumber (c :: p) q = false) :
    splitsNumber p q = false := by
  cases p with
  | nil => simp [splitsNumber]
  | cons a p => simpa [splitsNumber] using h

/-- Inserting one whitespace character at a cut that is not inside a number
does not change the scan. -/
theorem scan_insert_space (w : Char) (hw : isSpace w = true) (q : GoString) (n : Nat) :
    ∀ (p : GoString) (rpn : List GoString) (ops : List Char), p.length ≤ n →
      splitsNumber p q = false → scan (p ++ w :: q) rpn ops = scan (p ++ q) rpn ops := by
  induction n with
  | zero =>
    intro p rpn ops hn _
    have : p = [] := List.length_eq_zero.mp (Nat.le_zero.mp hn)
    subst this
    exact scan_space w q rpn ops hw
  | succ n ih =>
    intro p rpn ops hn hsplit
    cases p with
    | nil => exact scan_space w q rpn ops hw
    | cons c p =>
      have hpn : p.length ≤ n := by simpa using hn
      have htail := splitsNumber_tail hsplit
      by_cases hnum : isNumChar c = true
      · -- the run that starts at `c`
        have hrun : ∀ a ∈ c :: p.takeWhile isNumChar, isNumChar a = true := by
          intro a ha
          rcases List.mem_cons.mp ha with rfl | ha
          · exact hnum
          · exact (List.mem_takeWhile_imp ha)
        have hp : c :: p = (c :: p.takeWhile isNumChar) ++ p.dropWhile isNumChar := by
          simp
        cases hb : p.dropWhile isNumChar with
        | nil =>
          rw [hb, List.append_nil] at hp
          have hall : ∀ a ∈ c :: p, isNumChar a = true := by
            rw [hp]; exact hrun
          have hlast : (c :: p).getLast?.any isNumChar = true := by
            have hne : (c :: p) ≠ [] := by simp
            rw [List.getLast?_eq_getLast _ hne]
            simpa using hall _ (List.getLast_mem hne)
          have hq : q.head?.any isNumChar = false := by
            simpa [splitsNumber, hlast] using hsplit
          have hwq : (w :: q).takeWhile isNumChar = [] := by
            simp [List.takeWhile_cons, isSpace_not_numChar hw]
          rw [scan_run (c :: p) (w :: q) rpn ops (by simp) hall hwq,
            scan_run (c :: p) q rpn ops (by simp) hall (takeWhile_nil_of_head hq),
            scan_space w q _ ops hw]
        | cons y b =>
          have hy : isNumChar y = false := by
            have := List.head?_dropWhile_not isNumChar p
            rw [hb] at this
            simpa using this
          have hbl : (y :: b).length ≤ n := by
            rw [← hb]
            exact le_trans (List.dropWhile_sublist _).length_le hpn
          have hsp : splitsNumber (y :: b) q = false := by
            have hl : (c :: p).getLast? = (y :: b).getLast? := by
              rw [hp, hb, List.getLast?_append]
              simp [List.getLast?_eq_getLast]
            simpa [splitsNumber, hl] using hsplit
          have h1 : ∀ x : GoString, ((y :: b) ++ x).takeWhile isNumChar = [] := by
            intro x
            simp [List.takeWhile_cons, hy]
          rw [hp, hb, List.append_assoc, List.append_assoc,
            scan_run _ _ rpn ops (by simp) hrun (h1 _),
            scan_run _ _ rpn ops (by simp) hrun (h1 _)]
          exact ih _ _ _ hbl hsp
      · by_cases hop : isOperator c = true
        · rw [List.cons_append, List.cons_append, scan_operator c _ rpn ops hop,
            scan_operator c _ rpn ops hop]
          exact ih _ _ _ hpn htail
        · by_cases ho : c = '('
          · subst ho
            rw [List.cons_append, List.cons_append, scan_open, scan_open]
            exact ih _ _ _ hpn htail
          · by_cases hc : c = ')'
            · subst hc
              rw [List.cons_append, List.cons_append, scan_close, scan_close]
              cases (popToOpen rpn ops).2 with
              | nil => rfl
              | cons x rest => exact ih _ _ _ hpn htail
            · by_cases hs : isSpace c = true
              · rw [List.cons_append, List.cons_append, scan_space c _ rpn ops hs,
                  scan_space c _ rpn ops hs]
                exact ih _ _ _ hpn htail
              · have hall : isAllowed c = false := by
                  simp [isAllowed, hnum, hop, ho, hc, hs]
                rw [List.cons_append, List.cons_append, scan_disallowed c _ rpn ops hall,
                  scan_disallowed c _ rpn ops hall]

theorem Calc_congr {α : Type} (F : FloatOps α) {s t : GoString}
    (h : convertToRPN s = convertToRPN t) : Calc F s = Calc F t := by
  unfold Calc
  rw [h]

/-- C4 (amended). Whitespace between tokens is insignificant: inserting or
deleting whitespace characters anywhere except between two characters of a
number (digits or `'.'`) changes neither the result of `convertToRPN` nor the
value or error of `Calc`; `Calc("1 + 2") = Calc("1+2")`. -/
theorem C4_whitespace_between_tokens {α : Type} (F : FloatOps α) (s t : GoString)
    (h : WsRel s t) :
    convertToRPN t = convertToRPN s ∧ Calc F t = Calc F s
      ∧ Calc F "1 + 2".toList = Calc F "1+2".toList := by
  have key : convertToRPN t = convertToRPN s := by
    induction h with
    | refl => rfl
    | insert p q w _ hw hsplit ih =>
      rw [← ih, convertToRPN_eq_scan, convertToRPN_eq_scan]
      exact scan_insert_space w hw q p.length p [] [] le_rfl hsplit
    | delete p q w _ hw hsplit ih =>
      rw [← ih, convertToRPN_eq_scan, convertToRPN_eq_scan]
      exact (scan_insert_space w hw q p.length p [] [] le_rfl hsplit).symm
  exact ⟨key, Calc_congr F key, Calc_congr F (by decide)⟩

set_option maxRecDepth 100000 in
theorem C4_whitespace_between_tokens_witness :
    WsRel "1+2".toList "1 + 2".toList
      ∧ convertToRPN "1 + 2".toList = convertToRPN "1+2".toList
      ∧ Calc go64 "1 + 2".toList = (F64.ofNat 3, none) :=
  have h : WsRel "1+2".toList "1 + 2".toList :=
    WsRel.insert _ ['1', ' ', '+'] ['2'] ' '
      (WsRel.insert _ ['1'] ['+', '2'] ' ' (WsRel.refl _) (by decide) (by decide))
      (by decide) (by decide)
  ⟨h, (C4_whitespace_between_tokens go64 _ _ h).1,
    (C4_whitespace_between_tokens go64 _ _ h).2.1.trans (by decide!)⟩

set_option maxRecDepth 100000 in
/-- C4 as stated fails: a space inserted inside the number `12` splits it into
two tokens, and `Calc("1 2")` is `ErrValues` while `Calc("12")` is `12`. -/
theorem C4_counterexample :
    "1 2".toList = ['1'] ++ ' ' :: ['2'] ∧ "12".toList = ['1'] ++ ['2'] ∧ isSpace ' ' = true
      ∧ Calc go64 "12".toList = (F64.ofNat 12, none)
      ∧ Calc go64 "1 2".toList = (go64.zero, some ErrValues) := by
  decide!

/-! ## The postfix evaluator -/

theorem calcLoop_cons {α : Type} (F : FloatOps α) (t : GoString) (rest : List GoString)
    (st : List α) :
    calcLoop F (t :: rest) st
      = match stepStack F st t with
        | .ok st' => calcLoop F rest st'
        | .error e => (F.zero, some e) := by
  by_cases h : t = ['+'] ∨ t = ['-'] ∨ t = ['*'] ∨ t = ['/']
  · rcases st with _ | ⟨b, _ | ⟨a, below⟩⟩
    · simp only [calcLoop, stepStack, h, if_true]
    · simp only [calcLoop, stepStack, h, if_true]
    · simp only [calcLoop, stepStack, h, if_true]
      split_ifs <;> rfl
  · simp only [calcLoop, stepStack, h, if_false]
    cases F.parseFloat t <;> rfl

theorem calcLoop_eq_run {α : Type} (F : FloatOps α) : ∀ (rpn : List GoString) (st : List α),
    calcLoop F rpn st
      = match runStack F rpn st with
        | .ok [v] => (v, none)
        | .ok _ => (F.zero, some ErrValues)
        | .error e => (F.zero, some e) := by
  intro rpn
  induction rpn with
  | nil =>
    intro st
    rcases st with _ | ⟨v, _ | ⟨w, l⟩⟩ <;> simp only [runStack, calcLoop]
  | cons t rest ih =>
    intro st
    rw [calcLoop_cons, runStack]
    cases stepStack F st t with
    | ok st' => exact ih st'
    | error e => rfl

theorem runStack_append {α : Type} (F : FloatOps α) : ∀ (xs ys : List GoString) (st : List α),
    runStack F (xs ++ ys) st
      = match runStack F xs st with
        | .ok st' => runStack F ys st'
        | .error e => .error e := by
  intro xs
  induction xs with
  | nil => intro ys st; rfl
  | cons t xs ih =>
    intro ys st
    rw [List.cons_append, runStack, runStack]
    cases stepStack F st t with
    | ok st' => exact ih ys st'
    | error e => rfl

theorem stepStack_lit {α : Type} (F : FloatOps α) (st : List α) (t : GoString)
    (ht : isOpToken t = false) :
    stepStack F st t
      = match F.parseFloat t with
        | none => .error ErrAllowed
        | some v => .ok (v :: st) := by
  have h : ¬ (t = ['+'] ∨ t = ['-'] ∨ t = ['*'] ∨ t = ['/']) := by
    simpa [isOpToken] using ht
  simp only [stepStack, h, if_false]

theorem stepStack_short {α : Type} (F : FloatOps α) (st : List α) (t : GoString)
    (ht : isOpToken t = true) (hs : st.length < 2) : stepStack F st t = .error ErrValues := by
  have h : t = ['+'] ∨ t = ['-'] ∨ t = ['*'] ∨ t = ['/'] := by
    simpa [isOpToken] using ht
  simp only [stepStack, h, if_true]
  match st, hs with
  | [], _ => rfl
  | [_], _ => rfl

/-- An operator element on a stack of at least two values fails only as a
division by a zero top value, and otherwise replaces the two top values by
one. -/
theorem stepStack_op {α : Type} (F : FloatOps α) (b a : α) (below : List α) (t : GoString)
    (ht : isOpToken t = true) :
    (t = ['/'] ∧ F.isZero b = true ∧ stepStack F (b :: a :: below) t = .error ErrDivisionByZero)
      ∨ (¬ (t = ['/'] ∧ F.isZero b = true)
          ∧ ∃ v, stepStack F (b :: a :: below) t = .ok (v :: below)) := by
  have h : t = ['+'] ∨ t = ['-'] ∨ t = ['*'] ∨ t = ['/'] := by
    simpa [isOpToken] using ht
  simp only [stepStack, h, if_true]
  rcases h with h | h | h | h
  · subst h
    exact Or.inr ⟨by simp, F.add a b, by simp⟩
  · subst h
    exact Or.inr ⟨by simp, F.sub a b, by simp⟩
  · subst h
    exact Or.inr ⟨by simp, F.mul a b, by simp⟩
  · subst h
    by_cases hz : F.isZero b = true
    · exact Or.inl ⟨rfl, hz, by simp [hz]⟩
    · exact Or.inr ⟨by simp [hz], F.div a b, by simp [hz]⟩

theorem shapeFrom_nil (n : Nat) : ShapeFrom n [] ↔ n = 1 := by
  simp [ShapeFrom, litCount, opCount]

theorem shapeFrom_cons_op (n : Nat) (t : GoString) (rest : List GoString)
    (ht : isOpToken t = true) :
    ShapeFrom n (t :: rest) ↔ 2 ≤ n ∧ ShapeFrom (n - 1) rest := by
  have hl : litCount (t :: rest) = litCount rest := by simp [litCount, ht]
  have ho : opCount (t :: rest) = opCount rest + 1 := by simp [opCount, ht]
  constructor
  · rintro ⟨h1, h2⟩
    have h0 := h1 [] t rest rfl ht
    simp only [opCount, litCount, List.countP_nil] at h0
    refine ⟨by omega, ?_, by omega⟩
    intro pre u post heq hu
    have := h1 (t :: pre) u post (by rw [heq]; rfl) hu
    have hl' : litCount (t :: pre) = litCount pre := by simp [litCount, ht]
    have ho' : opCount (t :: pre) = opCount pre + 1 := by simp [opCount, ht]
    omega
  · rintro ⟨h0, h1, h2⟩
    refine ⟨?_, by omega⟩
    intro pre u post heq hu
    cases pre with
    | nil =>
      simp only [opCount, litCount, List.countP_nil]
      omega
    | cons x pre =>
      simp only [List.cons_append, List.cons.injEq] at heq
      obtain ⟨rfl, rfl⟩ := heq
      have := h1 pre u post rfl hu
      have hl' : litCount (t :: pre) = litCount pre := by simp [litCount, ht]
      have ho' : opCount (t :: pre) = opCount pre + 1 := by simp [opCount, ht]
      omega

theorem shapeFrom_cons_lit (n : Nat) (t : GoString) (rest : List GoString)
    (ht : isOpToken t = false) :
    ShapeFrom n (t :: rest) ↔ ShapeFrom (n + 1) rest := by
  have hl : litCount (t :: rest) = litCount rest + 1 := by simp [litCount, ht]
  have ho : opCount (t :: rest) = opCount rest := by simp [opCount, ht]
  constructor
  · rintro ⟨h1, h2⟩
    refine ⟨?_, by omega⟩
    intro pre u post heq hu
    have := h1 (t :: pre) u post (by rw [heq]; rfl) hu
    have hl' : litCount (t :: pre) = litCount pre + 1 := by simp [litCount, ht]
    have ho' : opCount (t :: pre) = opCount pre := by simp [opCount, ht]
    omega
  · rintro ⟨h1, h2⟩
    refine ⟨?_, by omega⟩
    intro pre u post heq hu
    cases pre with
    | nil =>
      simp only [List.nil_append, List.cons.injEq] at heq
      rw [← heq.1, ht] at hu
      exact absurd hu (by simp)
    | cons x pre =>
      simp only [List.cons_append, List.cons.injEq] at heq
      obtain ⟨rfl, rfl⟩ := heq
      have := h1 pre u post rfl hu
      have hl' : litCount (t :: pre) = litCount pre + 1 := by simp [litCount, ht]
      have ho' : opCount (t :: pre) = opCount pre := by simp [opCount, ht]
      omega

/-- Operand sufficiency decides the outcome of the evaluator loop started on
any stack, when the elements are literals `ParseFloat` accepts or operators
and no division meets a zero right operand. -/
theorem calcLoop_shape {α : Type} (F : FloatOps α) : ∀ (rpn : List GoString) (st : List α),
    (∀ t ∈ rpn, isOpToken t = true ∨ (F.parseFloat t).isSome = true) →
    (∀ (pre post : List GoString) (b a : α) (below : List α), rpn = pre ++ ['/'] :: post →
      runStack F pre st = .ok (b :: a :: below) → F.isZero b = false) →
    ((calcLoop F rpn st).2 = none ↔ ShapeFrom st.length rpn)
      ∧ ((calcLoop F rpn st).2 ≠ none → calcLoop F rpn st = (F.zero, some ErrValues)) := by
  intro rpn
  induction rpn with
  | nil =>
    intro st _ _
    rw [shapeFrom_nil]
    rcases st with _ | ⟨v, _ | ⟨w, l⟩⟩ <;> simp [calcLoop]
  | cons t rest ih =>
    intro st hvalid hdiv
    have hvalid' : ∀ u ∈ rest, isOpToken u = true ∨ (F.parseFloat u).isSome = true :=
      fun u hu => hvalid u (List.mem_cons_of_mem _ hu)
    have hdiv' : ∀ st', stepStack F st t = .ok st' →
        ∀ (pre post : List GoString) (b a : α) (below : List α), rest = pre ++ ['/'] :: post →
          runStack F pre st' = .ok (b :: a :: below) → F.isZero b = false := by
      intro st' hst pre post b a below heq hrun
      refine hdiv (t :: pre) post b a below (by rw [heq]; rfl) ?_
      rw [runStack, hst]
      exact hrun
    rw [calcLoop_cons]
    cases ht : isOpToken t with
    | true =>
      rw [shapeFrom_cons_op _ _ _ ht]
      match st, hdiv, hdiv' with
      | [], _, _ =>
        rw [stepStack_short F _ t ht (by simp)]
        simp
      | [x], _, _ =>
        rw [stepStack_short F _ t ht (by simp)]
        simp
      | b :: a :: below, hdiv, hdiv' =>
        rcases stepStack_op F b a below t ht with ⟨h1, h2, _⟩ | ⟨_, v, hv⟩
        · have := hdiv [] rest b a below (by rw [h1]; rfl) rfl
          rw [h2] at this
          exact absurd this (by simp)
        · rw [hv]
          have := ih (v :: below) hvalid' (hdiv' _ hv)
          simpa using this
    | false =>
      rw [shapeFrom_cons_lit _ _ _ ht, stepStack_lit F st t ht]
      have hp : (F.parseFloat t).isSome = true := by
        rcases hvalid t (List.mem_cons_self _ _) with h | h
        · rw [ht] at h
          exact absurd h (by simp)
        · exact h
      obtain ⟨v, hv⟩ := Option.isSome_iff_exists.mp hp
      have hst : stepStack F st t = .ok (v :: st) := by
        rw [stepStack_lit F st t ht, hv]
      rw [hv]
      have := ih (v :: st) hvalid' (hdiv' _ hst)
      simpa using this

theorem operandShape_iff (rpn : List GoString) : OperandShape rpn ↔ ShapeFrom 0 rpn := by
  simp [OperandShape, ShapeFrom]

/-- C10. On a sequence of literals that `ParseFloat` accepts and operators, in
which no division meets a zero right operand, `calculateRPN` returns a value
exactly when before every operator the literals seen exceed the operators seen
by at least two and the literals are one more than the operators in total; in
every other case it returns `ErrValues`. -/
theorem C10_operand_sufficiency {α : Type} (F : FloatOps α) (rpn : List GoString)
    (hvalid : ∀ t ∈ rpn, isOpToken t = true ∨ (F.parseFloat t).isSome = true)
    (hdiv : ∀ (pre post : List GoString) (b a : α) (below : List α),
      rpn = pre ++ ['/'] :: post → runStack F pre [] = .ok (b :: a :: below) →
      F.isZero b = false) :
    ((calculateRPN F rpn).2 = none ↔ OperandShape rpn)
      ∧ (¬ OperandShape rpn → calculateRPN F rpn = (F.zero, some ErrValues)) := by
  have h := calcLoop_shape F rpn [] hvalid hdiv
  rw [operandShape_iff]
  refine ⟨h.1, ?_⟩
  intro hs
  exact h.2 (fun hn => hs (h.1.mp hn))

set_option maxRecDepth 100000 in
theorem C10_operand_sufficiency_witness :
    (∀ t ∈ [['1'], ['2']], isOpToken t = true ∨ (go64.parseFloat t).isSome = true)
      ∧ ¬ OperandShape [['1'], ['2']]
      ∧ calculateRPN go64 [['1'], ['2']] = (go64.zero, some ErrValues) :=
  have hvalid : ∀ t ∈ [['1'], ['2']], isOpToken t = true ∨ (go64.parseFloat t).isSome = true := by
    decide!
  have hdiv : ∀ (pre post : List GoString) (b a : F64) (below : List F64),
      [['1'], ['2']] = pre ++ ['/'] :: post → runStack go64 pre [] = .ok (b :: a :: below) →
      go64.isZero b = false := by
    intro pre post b a below heq _
    have hmem : ['/'] ∈ [['1'], ['2']] := by rw [heq]; simp
    exact absurd hmem (by decide)
  have hshape : ¬ OperandShape [['1'], ['2']] := fun h => absurd h.2 (by decide)
  ⟨hvalid, hshape, (C10_operand_sufficiency go64 _ hvalid hdiv).2 hshape⟩

/-! ## Conversion and evaluation of well-formed expressions -/

theorem pushOperator_pending (op : Char) (ops : List Char)
    (hops : ∀ c ∈ ops.head?, priority c < priority op) :
    ∀ (pend : List Char) (rpn : List GoString), (∀ c ∈ pend, priority op ≤ priority c) →
      pushOperator op rpn (pend ++ ops) = (rpn ++ pend.map (fun c => [c]), op :: ops) := by
  intro pend
  induction pend with
  | nil =>
    intro rpn _
    cases ops with
    | nil => simp [pushOperator]
    | cons top rest =>
      have : priority top < priority op := hops top (by simp)
      simp [pushOperator, Nat.not_le.mpr this]
  | cons c pend ih =>
    intro rpn h
    have hc : priority op ≤ priority c := h c (List.mem_cons_self _ _)
    rw [List.cons_append, pushOperator, if_pos hc,
      ih _ (fun a ha => h a (List.mem_cons_of_mem _ ha))]
    simp

theorem popToOpen_pending (ops : List Char) :
    ∀ (pend : List Char) (rpn : List GoString), (∀ c ∈ pend, c ≠ '(') →
      popToOpen rpn (pend ++ '(' :: ops) = (rpn ++ pend.map (fun c => [c]), '(' :: ops) := by
  intro pend
  induction pend with
  | nil => intro rpn _; simp [popToOpen]
  | cons c pend ih =>
    intro rpn h
    have hc : c ≠ '(' := h c (List.mem_cons_self _ _)
    rw [List.cons_append, popToOpen, if_pos hc,
      ih _ (fun a ha => h a (List.mem_cons_of_mem _ ha))]
    simp

theorem drain_pending : ∀ (pend : List Char) (rpn : List GoString), (∀ c ∈ pend, c ≠ '(') →
    drain rpn pend = (rpn ++ pend.map (fun c => [c]), none) := by
  intro pend
  induction pend with
  | nil => intro rpn _; simp [drain]
  | cons c pend ih =>
    intro rpn h
    have hc : c ≠ '(' := h c (List.mem_cons_self _ _)
    simp only [drain, hc, if_false]
    rw [ih _ (fun a ha => h a (List.mem_cons_of_mem _ ha))]
    simp

theorem takeWhile_spaces_then (w : GoString) (c : Char) (y : GoString)
    (hw : ∀ a ∈ w, isSpace a = true) (hc : isNumChar c = false) :
    (w ++ c :: y).takeWhile isNumChar = [] := by
  cases w with
  | nil => simp [List.takeWhile_cons, hc]
  | cons a w =>
    simp [List.takeWhile_cons, isSpace_not_numChar (hw a (List.mem_cons_self _ _))]

theorem isOperator_not_numChar {c : Char} (h : isOperator c = true) : isNumChar c = false := by
  simp only [isOperator, Bool.or_eq_true, decide_eq_true_eq] at h
  rcases h with ((h | h) | h) | h <;> subst h <;> decide

theorem isNumber_ne_nil {n : GoString} (h : isNumber n = true) : n ≠ [] := by
  rintro rfl
  revert h
  decide

theorem isNumber_numChar {n : GoString} (h : isNumber n = true) :
    ∀ c ∈ n, isNumChar c = true := by
  simp only [isNumber, Bool.and_eq_true, List.all_eq_true] at h
  exact h.1.1

/-- Scanning a text derived at a grammar level appends the postfix form of its
expression, except for a strictly sorted list `pend` of operators that are
still on the stack. -/
theorem scan_gen {level : Nat} {e : Expr} {s : GoString} (h : Gen level e s) :
    ∃ (r : List GoString) (pend : List Char),
      r ++ pend.map (fun c => [c]) = e.post
        ∧ (∀ c ∈ pend, isOperator c = true ∧ level ≤ priority c)
        ∧ pend.Pairwise (fun a b => priority b < priority a)
        ∧ ∀ (x : GoString) (rpn : List GoString) (ops : List Char),
            x.takeWhile isNumChar = [] → (∀ c ∈ ops.head?, priority c < level) →
            scan (s ++ x) rpn ops = scan x (rpn ++ r) (pend ++ ops) := by
  induction h with
  | number w lit hw hlit =>
    refine ⟨[lit], [], by simp [Expr.post], by simp, List.Pairwise.nil, ?_⟩
    intro x rpn ops hx _
    rw [List.append_assoc, scan_spaces w _ rpn ops hw,
      scan_run lit x rpn ops (isNumber_ne_nil hlit) (isNumber_numChar hlit) hx]
    rfl
  | parens w e s w' hw _ hw' ih =>
    obtain ⟨r, pend, hpost, hpend, _, hscan⟩ := ih
    refine ⟨e.post, [], by simp, by simp, List.Pairwise.nil, ?_⟩
    intro x rpn ops _ _
    have hx' : (w' ++ ')' :: x).takeWhile isNumChar = [] :=
      takeWhile_spaces_then w' ')' x hw' (by decide)
    have hassoc : (w ++ '(' :: (s ++ (w' ++ [')']))) ++ x = w ++ '(' :: (s ++ (w' ++ ')' :: x)) := by
      simp
    rw [hassoc, scan_spaces w _ rpn ops hw, scan_open,
      hscan (w' ++ ')' :: x) rpn ('(' :: ops) hx' (by simp [priority]),
      scan_spaces w' _ _ _ hw', scan_close,
      popToOpen_pending ops pend (rpn ++ r) (fun c hc => isOperator_ne_open (hpend c hc).1)]
    simp only [List.append_assoc, hpost, List.nil_append]
  | up level e s _ _ ih =>
    obtain ⟨r, pend, hpost, hpend, hsorted, hscan⟩ := ih
    refine ⟨r, pend, hpost, fun c hc => ⟨(hpend c hc).1, by have := (hpend c hc).2; omega⟩,
      hsorted, ?_⟩
    intro x rpn ops hx hops
    exact hscan x rpn ops hx (fun c hc => by have := hops c hc; omega)
  | binary op l s w r t hop _ hw _ ihl ihr =>
    obtain ⟨rl, pl, hpostl, hpendl, _, hscanl⟩ := ihl
    obtain ⟨rr, pr, hpostr, hpendr, hsortedr, hscanr⟩ := ihr
    refine ⟨l.post ++ rr, pr ++ [op], ?_, ?_, ?_, ?_⟩
    · simp only [Expr.post, List.map_append, List.map_cons, List.map_nil, ← hpostr,
        List.append_assoc]
    · intro c hc
      rcases List.mem_append.mp hc with hc | hc
      · exact ⟨(hpendr c hc).1, by have := (hpendr c hc).2; omega⟩
      · have : c = op := by simpa using hc
        subst this
        exact ⟨hop, le_rfl⟩
    · rw [List.pairwise_append]
      refine ⟨hsortedr, List.pairwise_singleton _ _, ?_⟩
      intro a ha b hb
      have : b = op := by simpa using hb
      subst this
      have := (hpendr a ha).2
      omega
    · intro x rpn ops hx hops
      have hx' : (w ++ op :: (t ++ x)).takeWhile isNumChar = [] :=
        takeWhile_spaces_then w op _ hw (isOperator_not_numChar hop)
      have hassoc : (s ++ (w ++ op :: t)) ++ x = s ++ (w ++ op :: (t ++ x)) := by simp
      rw [hassoc, hscanl _ rpn ops hx' hops, scan_spaces w _ _ _ hw,
        scan_operator op _ _ _ hop,
        pushOperator_pending op ops hops pl (rpn ++ rl) (fun c hc => (hpendl c hc).2)]
      simp only []
      rw [hscanr x _ (op :: ops) hx (by simp)]
      rw [← hpostl]
      simp only [List.append_assoc, List.singleton_append]

/-- The converter turns a well-formed expression into its postfix form. -/
theorem convertToRPN_wellFormed {e : Expr} {s : GoString} (h : WellFormed e s) :
    convertToRPN s = (e.post, none) := by
  obtain ⟨t, w, hgen, hw, rfl⟩ := h
  obtain ⟨r, pend, hpost, hpend, _, hscan⟩ := scan_gen hgen
  have hx : w.takeWhile isNumChar = [] := by
    cases w with
    | nil => rfl
    | cons a w =>
      simp [List.takeWhile_cons, isSpace_not_numChar (hw a (List.mem_cons_self _ _))]
  rw [convertToRPN_eq_scan, hscan w [] [] hx (by simp)]
  have := scan_spaces w [] ([] ++ r) (pend ++ []) hw
  rw [List.append_nil] at this
  rw [this, scan_nil,
    drain_pending _ _ (fun c hc => isOperator_ne_open (hpend c (by simpa using hc)).1)]
  simp [hpost]

theorem gen_wellTokened {level : Nat} {e : Expr} {s : GoString} (h : Gen level e s) :
    e.wellTokened = true := by
  induction h with
  | number w lit _ hlit => simpa [Expr.wellTokened] using hlit
  | parens _ _ _ _ _ _ _ ih => exact ih
  | up _ _ _ _ _ ih => exact ih
  | binary op l s w r t hop _ _ _ ihl ihr => simp [Expr.wellTokened, hop, ihl, ihr]

theorem isNumber_not_opToken {n : GoString} (h : isNumber n = true) : isOpToken n = false := by
  have hall := isNumber_numChar h
  cases hop : isOpToken n with
  | false => rfl
  | true =>
    simp only [isOpToken, decide_eq_true_eq] at hop
    rcases hop with h1 | h1 | h1 | h1 <;> subst h1 <;>
      exact absurd (hall _ (List.mem_cons_self _ _)) (by decide)

theorem stepStack_operator {α : Type} (F : FloatOps α) (op : Char) (hop : isOperator op = true)
    (b a : α) (below : List α) :
    stepStack F (b :: a :: below) [op]
      = if op = '/' ∧ F.isZero b = true then .error ErrDivisionByZero
        else .ok (applyOp F op a b :: below) := by
  simp only [isOperator, Bool.or_eq_true, decide_eq_true_eq] at hop
  rcases hop with ((h | h) | h) | h <;> subst h
  · simp [stepStack, applyOp]
  · simp [stepStack, applyOp]
  · by_cases hz : F.isZero b = true <;> simp [stepStack, applyOp, hz]
  · simp [stepStack, applyOp]

/-- The evaluator loop on the postfix form of an expression whose literals
`ParseFloat` accepts: `ErrDivisionByZero` if some division has a zero right
operand, and otherwise the value of the expression pushed on the stack. -/
theorem runStack_post {α : Type} (F : FloatOps α) : ∀ (e : Expr), e.wellTokened = true →
    e.litsParse F = true → ∀ (st : List α),
    runStack F e.post st
      = if e.hasZeroDivisor F = true then .error ErrDivisionByZero
        else .ok (e.value F :: st) := by
  intro e
  induction e with
  | num lit =>
    intro hwt hp st
    have hlit : isNumber lit = true := by simpa [Expr.wellTokened] using hwt
    have hsome : (F.parseFloat lit).isSome = true := by
      simpa [Expr.litsParse, Expr.literals] using hp
    obtain ⟨v, hv⟩ := Option.isSome_iff_exists.mp hsome
    simp [Expr.post, runStack, stepStack_lit F st lit (isNumber_not_opToken hlit), hv,
      Expr.hasZeroDivisor, Expr.value]
  | bin op l r ihl ihr =>
    intro hwt hp st
    simp only [Expr.wellTokened, Bool.and_eq_true] at hwt
    obtain ⟨⟨hop, hwl⟩, hwr⟩ := hwt
    have hpl : l.litsParse F = true := by
      simp only [Expr.litsParse, Expr.literals, List.all_append, Bool.and_eq_true] at hp
      exact hp.1
    have hpr : r.litsParse F = true := by
      simp only [Expr.litsParse, Expr.literals, List.all_append, Bool.and_eq_true] at hp
      exact hp.2
    simp only [Expr.post, List.append_assoc]
    rw [runStack_append, ihl hwl hpl st]
    by_cases hzl : l.hasZeroDivisor F = true
    · simp [Expr.hasZeroDivisor, hzl]
    · rw [if_neg hzl]
      simp only []
      rw [runStack_append, ihr hwr hpr]
      by_cases hzr : r.hasZeroDivisor F = true
      · simp [Expr.hasZeroDivisor, hzr]
      · rw [if_neg hzr]
        simp only [runStack, stepStack_operator F op hop]
        by_cases hd : op = '/' ∧ F.isZero (r.value F) = true
        · simp [Expr.hasZeroDivisor, hd.1, hd.2]
        · have hz : l.hasZeroDivisor F = false := by simpa using hzl
          have hz' : r.hasZeroDivisor F = false := by simpa using hzr
          have hd' : (decide (op = '/') && F.isZero (r.value F)) = false := by
            simpa using hd
          simp [Expr.hasZeroDivisor, hz, hz', hd, hd', Expr.value]

/-- The result of `Calc` on a well-formed expression whose literals
`ParseFloat` accepts. -/
theorem Calc_wellFormed {α : Type} (F : FloatOps α) {e : Expr} {s : GoString}
    (h : WellFormed e s) (hp : e.litsParse F = true) :
    Calc F s = if e.hasZeroDivisor F = true then (F.zero, some ErrDivisionByZero)
      else (e.value F, none) := by
  have hwt : e.wellTokened = true := by
    obtain ⟨t, w, hgen, _, _⟩ := h
    exact gen_wellTokened hgen
  rw [Calc_of_convert_ok F s e.post (convertToRPN_wellFormed h), calculateRPN,
    calcLoop_eq_run, runStack_post F e hwt hp []]
  by_cases hz : e.hasZeroDivisor F = true <;> simp [hz]

/-! ## Claims on well-formed expressions -/

theorem calcLoop_ok_iff {α : Type} (F : FloatOps α) (rpn : List GoString) (st : List α) :
    (calcLoop F rpn st).2 = none ↔ ∃ v, runStack F rpn st = .ok [v] := by
  rw [calcLoop_eq_run]
  cases h : runStack F rpn st with
  | error e => simp
  | ok st' => rcases st' with _ | ⟨v, _ | ⟨w, l⟩⟩ <;> simp

/-- C1 (amended). For every well-formed infix expression whose number literals
are all accepted by `ParseFloat` (in particular none overflows `float64`) and
in which no division has a right operand equal to zero, `Calc` returns without
error the value of the expression under the usual semantics, computed with the
`float64` operations; `Calc("1+2*3") = 7` and `Calc("2*(3+4)") = 14`. -/
theorem C1_precedence_arithmetic {α : Type} (F : FloatOps α) (e : Expr) (s : GoString)
    (h : WellFormed e s) (hp : e.litsParse F = true) (hz : e.hasZeroDivisor F = false) :
    Calc F s = (e.value F, none) := by
  rw [Calc_wellFormed F h hp, hz]
  simp

set_option maxRecDepth 100000 in
theorem C1_precedence_arithmetic_witness :
    WellFormed (.bin '+' (.num ['1']) (.bin '*' (.num ['2']) (.num ['3']))) "1+2*3".toList
      ∧ WellFormed (.bin '*' (.num ['2']) (.bin '+' (.num ['3']) (.num ['4']))) "2*(3+4)".toList
      ∧ Calc go64 "1+2*3".toList = (F64.ofNat 7, none)
      ∧ Calc go64 "2*(3+4)".toList = (F64.ofNat 14, none) :=
  have lit : ∀ c : Char, isNumber [c] = true → Gen 3 (.num [c]) [c] :=
    fun c hc => Gen.number [] [c] (by simp) hc
  have h1 : WellFormed (.bin '+' (.num ['1']) (.bin '*' (.num ['2']) (.num ['3'])))
      "1+2*3".toList :=
    ⟨"1+2*3".toList, [],
      Gen.binary '+' _ ['1'] [] _ ['2', '*', '3'] (by decide)
        (Gen.up 1 _ _ (by decide) (Gen.up 2 _ _ (by decide) (lit '1' (by decide))))
        (by simp)
        (Gen.binary '*' _ ['2'] [] _ ['3'] (by decide)
          (Gen.up 2 _ _ (by decide) (lit '2' (by decide))) (by simp) (lit '3' (by decide))),
      by simp, by simp⟩
  have h2 : WellFormed (.bin '*' (.num ['2']) (.bin '+' (.num ['3']) (.num ['4'])))
      "2*(3+4)".toList :=
    ⟨"2*(3+4)".toList, [],
      Gen.up 1 _ _ (by decide)
        (Gen.binary '*' _ ['2'] [] _ ['(', '3', '+', '4', ')'] (by decide)
          (Gen.up 2 _ _ (by decide) (lit '2' (by decide))) (by simp)
          (Gen.parens [] _ ['3', '+', '4'] [] (by simp)
            (Gen.binary '+' _ ['3'] [] _ ['4'] (by decide)
              (Gen.up 1 _ _ (by decide) (Gen.up 2 _ _ (by decide) (lit '3' (by decide))))
              (by simp) (Gen.up 2 _ _ (by decide) (lit '4' (by decide))))
            (by simp))),
      by simp, by simp⟩
  ⟨h1, h2,
    (C1_precedence_arithmetic go64 _ _ h1 (by decide!) (by decide!)).trans (by decide!),
    (C1_precedence_arithmetic go64 _ _ h2 (by decide!) (by decide!)).trans (by decide!)⟩

set_option maxRecDepth 100000 in
/-- C1 as stated fails: a run of 400 digits is a number of the grammar, but
`ParseFloat` rejects it with a range error, which `calculateRPN` reports as
`ErrAllowed`. -/
theorem C1_counterexample :
    WellFormed (.num (List.replicate 400 '9')) (List.replicate 400 '9')
      ∧ (Expr.num (List.replicate 400 '9')).hasZeroDivisor go64 = false
      ∧ Calc go64 (List.replicate 400 '9') = (go64.zero, some ErrAllowed) :=
  ⟨⟨List.replicate 400 '9', [],
      Gen.up 1 _ _ (by decide) (Gen.up 2 _ _ (by decide)
        (Gen.number [] (List.replicate 400 '9') (by simp) (by decide!))),
      by simp, by simp⟩,
    rfl, by decide!⟩

theorem priority_le_two (c : Char) : priority c ≤ 2 := by
  unfold priority
  split_ifs <;> omega

theorem isOpToken_singleton (op : Char) (hop : isOperator op = true) :
    isOpToken [op] = true := by
  simp only [isOperator, Bool.or_eq_true, decide_eq_true_eq] at hop
  rcases hop with ((h | h) | h) | h <;> subst h <;> decide

/-- The sequence the converter returns when one more operator follows a
well-formed expression: the operator goes before the pending operators of lower
priority, of which there is at most one. -/
theorem convertToRPN_trailing {e : Expr} {s : GoString} (h : WellFormed e s) (op : Char)
    (hop : isOperator op = true) :
    ∃ (front : List GoString) (lo : List Char),
      e.post = front ++ lo.map (fun c => [c])
        ∧ convertToRPN (s ++ [op]) = (front ++ [op] :: lo.map (fun c => [c]), none)
        ∧ (∀ c ∈ lo, isOperator c = true) ∧ lo.length ≤ 1 := by
  obtain ⟨t, w, hgen, hw, rfl⟩ := h
  obtain ⟨r, pend, hpost, hpend, hsorted, hscan⟩ := scan_gen hgen
  have hsplit : pend.takeWhile (fun c => decide (priority op ≤ priority c))
      ++ pend.dropWhile (fun c => decide (priority op ≤ priority c)) = pend :=
    List.takeWhile_append_dropWhile _ _
  generalize hhi : pend.takeWhile (fun c => decide (priority op ≤ priority c)) = hi at hsplit
  generalize hlo : pend.dropWhile (fun c => decide (priority op ≤ priority c)) = lo at hsplit
  have hhi_all : ∀ c ∈ hi, priority op ≤ priority c := by
    intro c hc
    rw [← hhi] at hc
    simpa using List.mem_takeWhile_imp hc
  have hlo_head : ∀ c ∈ lo.head?, priority c < priority op := by
    intro c hc
    have := List.head?_dropWhile_not (fun c => decide (priority op ≤ priority c)) pend
    rw [hlo] at this
    cases lo with
    | nil => simp at hc
    | cons a lo =>
      simp only [List.head?_cons, Option.mem_def, Option.some.injEq] at hc
      subst hc
      simpa using this
  have hlo_op : ∀ c ∈ lo, isOperator c = true := by
    intro c hc
    exact (hpend c (by rw [← hsplit]; exact List.mem_append_right _ hc)).1
  have hlo_sorted : lo.Pairwise (fun a b => priority b < priority a) := by
    rw [← hsplit] at hsorted
    exact (List.pairwise_append.mp hsorted).2.1
  have hlo_len : lo.length ≤ 1 := by
    match lo, hlo_head, hlo_op, hlo_sorted with
    | [], _, _, _ => simp
    | [_], _, _, _ => simp
    | a :: b :: _, hh, ho, hs =>
      have h1 : priority a < priority op := hh a (by simp)
      have h2 : priority b < priority a := (List.pairwise_cons.mp hs).1 b (by simp)
      have h3 : 1 ≤ priority b := priority_operator (ho b (by simp))
      have h4 := priority_le_two op
      omega
  have hx : (w ++ [op]).takeWhile isNumChar = [] :=
    takeWhile_spaces_then w op [] hw (isOperator_not_numChar hop)
  refine ⟨r ++ hi.map (fun c => [c]), lo, ?_, ?_, hlo_op, hlo_len⟩
  · rw [← hpost, ← hsplit]
    simp
  · rw [convertToRPN_eq_scan, List.append_assoc, hscan (w ++ [op]) [] [] hx (by simp),
      scan_spaces w _ _ _ hw, scan_operator op _ _ _ hop, scan_nil, List.append_nil,
      ← hsplit, pushOperator_pending op lo hlo_head hi _ hhi_all]
    have hd : ∀ c ∈ op :: lo, c ≠ '(' := by
      intro c hc
      rcases List.mem_cons.mp hc with rfl | hc
      · exact isOperator_ne_open hop
      · exact isOperator_ne_open (hlo_op c hc)
    rw [drain_pending (op :: lo) _ hd]
    simp

/-- C5 (amended). For every well-formed infix expression `E` on which `Calc`
returns a value and every operator `op`, `Calc(E ++ op)` returns an error:
`ErrValues` when `op` is `'+'`, `'-'` or `'*'`, and `ErrValues` or
`ErrDivisionByZero` when `op` is `'/'`. -/
theorem C5_trailing_operator {α : Type} (F : FloatOps α) (e : Expr) (s : GoString) (op : Char)
    (h : WellFormed e s) (hv : (Calc F s).2 = none) (hop : isOperator op = true) :
    (Calc F (s ++ [op]) = (F.zero, some ErrValues)
        ∨ (op = '/' ∧ Calc F (s ++ [op]) = (F.zero, some ErrDivisionByZero)))
      ∧ (op ≠ '/' → Calc F (s ++ [op]) = (F.zero, some ErrValues)) := by
  have hrun : ∃ v, runStack F e.post [] = .ok [v] := by
    rw [Calc_of_convert_ok F s e.post (convertToRPN_wellFormed h), calculateRPN] at hv
    exact (calcLoop_ok_iff F _ _).mp hv
  obtain ⟨v, hv⟩ := hrun
  obtain ⟨front, lo, hpost, hconv, hlo_op, hlo_len⟩ := convertToRPN_trailing h op hop
  have hopt : isOpToken [op] = true := isOpToken_singleton op hop
  have key : Calc F (s ++ [op]) = (F.zero, some ErrValues)
      ∨ (op = '/' ∧ Calc F (s ++ [op]) = (F.zero, some ErrDivisionByZero)) := by
    rw [Calc_of_convert_ok F _ _ hconv, calculateRPN, calcLoop_eq_run, runStack_append]
    rw [hpost, runStack_append] at hv
    cases hfront : runStack F front [] with
    | error err => rw [hfront] at hv; simp at hv
    | ok st =>
      rw [hfront] at hv
      simp only [] at hv ⊢
      match lo, hlo_len, hlo_op, hv with
      | [], _, _, hv =>
        simp only [List.map_nil, runStack, Except.ok.injEq] at hv
        subst hv
        simp [runStack, stepStack_short F [v] [op] hopt (by simp)]
      | [o], _, hlo_op, hv =>
        have hot : isOpToken [o] = true := isOpToken_singleton o (hlo_op o (by simp))
        simp only [List.map_cons, List.map_nil, runStack] at hv ⊢
        match st, hv with
        | [], hv => simp [stepStack_short F [] [o] hot (by simp)] at hv
        | [x], hv => simp [stepStack_short F [x] [o] hot (by simp)] at hv
        | b :: a :: below, hv =>
          have hbelow : below = [] := by
            rcases stepStack_op F b a below [o] hot with ⟨_, _, h3⟩ | ⟨_, u, hu⟩
            · rw [h3] at hv
              simp at hv
            · rw [hu] at hv
              simp only [Except.ok.injEq, List.cons.injEq] at hv
              exact hv.2
          subst hbelow
          rcases stepStack_op F b a [] [op] hopt with ⟨h1, _, h3⟩ | ⟨_, u, hu⟩
          · right
            refine ⟨by simpa using h1, ?_⟩
            rw [h3]
          · left
            rw [hu]
            simp [stepStack_short F [u] [o] hot (by simp)]
      | _ :: _ :: _, hl, _, _ => simp at hl
  refine ⟨key, ?_⟩
  intro hne
  rcases key with h1 | ⟨h1, _⟩
  · exact h1
  · exact absurd h1 hne

set_option maxRecDepth 100000 in
theorem C5_trailing_operator_witness :
    WellFormed (.num ['2']) "2".toList ∧ (Calc go64 "2".toList).2 = none
      ∧ Calc go64 "2+".toList = (go64.zero, some ErrValues) :=
  have h : WellFormed (.num ['2']) "2".toList :=
    ⟨['2'], [], Gen.up 1 _ _ (by decide) (Gen.up 2 _ _ (by decide)
      (Gen.number [] ['2'] (by simp) (by decide))), by simp, by simp⟩
  have hv : (Calc go64 "2".toList).2 = none := by decide!
  ⟨h, hv, (C5_trailing_operator go64 _ "2".toList '+' h hv (by decide)).2 (by decide)⟩

set_option maxRecDepth 100000 in
/-- C5 as stated fails: `"1+0"` is well formed and `Calc` returns `1` on it, but
`Calc("1+0/")` is `ErrDivisionByZero`, not `ErrValues`: the trailing `'/'` is
applied to the operands `1` and `0` before the pending `'+'`. -/
theorem C5_counterexample :
    WellFormed (.bin '+' (.num ['1']) (.num ['0'])) "1+0".toList
      ∧ Calc go64 "1+0".toList = (F64.ofNat 1, none)
      ∧ convertToRPN "1+0/".toList = ([['1'], ['0'], ['/'], ['+']], none)
      ∧ Calc go64 "1+0/".toList = (go64.zero, some ErrDivisionByZero) :=
  ⟨⟨"1+0".toList, [],
      Gen.binary '+' _ ['1'] [] _ ['0'] (by decide)
        (Gen.up 1 _ _ (by decide) (Gen.up 2 _ _ (by decide)
          (Gen.number [] ['1'] (by simp) (by decide))))
        (by simp)
        (Gen.up 2 _ _ (by decide) (Gen.number [] ['0'] (by simp) (by decide))),
      by simp, by simp⟩,
    by decide!, by decide!, by decide!⟩

/-- The evaluator reports a division by zero only at a `"/"` element that
finds at least two values on the stack, the top one zero. -/
theorem runStack_divZero {α : Type} (F : FloatOps α) : ∀ (rpn : List GoString) (st : List α),
    runStack F rpn st = .error ErrDivisionByZero →
    ∃ (pre post : List GoString) (b a : α) (below : List α),
      rpn = pre ++ ['/'] :: post ∧ runStack F pre st = .ok (b :: a :: below)
        ∧ F.isZero b = true := by
  intro rpn
  induction rpn with
  | nil => intro st h; simp [runStack] at h
  | cons t rest ih =>
    intro st h
    rw [runStack] at h
    cases hstep : stepStack F st t with
    | ok st' =>
      rw [hstep] at h
      obtain ⟨pre, post, b, a, below, heq, hrun, hz⟩ := ih st' h
      refine ⟨t :: pre, post, b, a, below, by rw [heq]; rfl, ?_, hz⟩
      rw [runStack, hstep]
      exact hrun
    | error err =>
      rw [hstep] at h
      simp only [Except.error.injEq] at h
      subst h
      cases ht : isOpToken t with
      | false =>
        rw [stepStack_lit F st t ht] at hstep
        cases hp : F.parseFloat t <;> rw [hp] at hstep <;> simp at hstep
      | true =>
        match st, hstep with
        | [], hstep => rw [stepStack_short F [] t ht (by simp)] at hstep; simp at hstep
        | [x], hstep => rw [stepStack_short F [x] t ht (by simp)] at hstep; simp at hstep
        | b :: a :: below, hstep =>
          rcases stepStack_op F b a below t ht with ⟨h1, h2, _⟩ | ⟨_, u, hu⟩
          · exact ⟨[], rest, b, a, below, by rw [h1]; rfl, rfl, h2⟩
          · rw [hu] at hstep
            simp at hstep

/-- C6 (amended). For every well-formed infix expression whose number literals
are all accepted by `ParseFloat` and in which some division's right operand
evaluates to zero, `Calc` returns `ErrDivisionByZero` with the value `0`; and
`calculateRPN` returns `ErrDivisionByZero` only when it reaches a `"/"` element
with at least two values on the stack whose top value is zero. -/
theorem C6_division_by_zero {α : Type} (F : FloatOps α) (e : Expr) (s : GoString)
    (h : WellFormed e s) (hp : e.litsParse F = true) (hz : e.hasZeroDivisor F = true) :
    Calc F s = (F.zero, some ErrDivisionByZero)
      ∧ ∀ rpn : List GoString, (calculateRPN F rpn).2 = some ErrDivisionByZero →
          ∃ (pre post : List GoString) (b a : α) (below : List α),
            rpn = pre ++ ['/'] :: post ∧ runStack F pre [] = .ok (b :: a :: below)
              ∧ F.isZero b = true := by
  refine ⟨?_, ?_⟩
  · rw [Calc_wellFormed F h hp, hz]
    simp
  · intro rpn hr
    apply runStack_divZero F rpn []
    rw [calculateRPN, calcLoop_eq_run] at hr
    cases hrun : runStack F rpn [] with
    | error err =>
      rw [hrun] at hr
      simp only [Option.some.injEq] at hr
      rw [hr]
    | ok st =>
      rw [hrun] at hr
      rcases st with _ | ⟨v, _ | ⟨w, l⟩⟩ <;> simp at hr

set_option maxRecDepth 100000 in
theorem C6_division_by_zero_witness :
    WellFormed (.bin '/' (.num ['2']) (.num ['0'])) "2/0".toList
      ∧ (Expr.bin '/' (.num ['2']) (.num ['0'])).hasZeroDivisor go64 = true
      ∧ Calc go64 "2/0".toList = (go64.zero, some ErrDivisionByZero) :=
  have h : WellFormed (.bin '/' (.num ['2']) (.num ['0'])) "2/0".toList :=
    ⟨"2/0".toList, [],
      Gen.up 1 _ _ (by decide)
        (Gen.binary '/' _ ['2'] [] _ ['0'] (by decide)
          (Gen.up 2 _ _ (by decide) (Gen.number [] ['2'] (by simp) (by decide)))
          (by simp) (Gen.number [] ['0'] (by simp) (by decide))),
      by simp, by simp⟩
  have hz : (Expr.bin '/' (.num ['2']) (.num ['0'])).hasZeroDivisor go64 = true := by decide!
  ⟨h, hz, (C6_division_by_zero go64 _ _ h (by decide!) hz).1⟩

set_option maxRecDepth 100000 in
/-- C6 as stated fails: in `99...9+1/0`, with 400 nines, the division `1/0` has
a zero right operand, but the evaluator meets the literal of 400 digits first,
`ParseFloat` rejects it with a range error and `Calc` returns `ErrAllowed`. -/
theorem C6_counterexample :
    WellFormed (.bin '+' (.num (List.replicate 400 '9')) (.bin '/' (.num ['1']) (.num ['0'])))
        (List.replicate 400 '9' ++ "+1/0".toList)
      ∧ (Expr.bin '+' (.num (List.replicate 400 '9'))
          (.bin '/' (.num ['1']) (.num ['0']))).hasZeroDivisor go64 = true
      ∧ Calc go64 (List.replicate 400 '9' ++ "+1/0".toList) = (go64.zero, some ErrAllowed) :=
  ⟨⟨List.replicate 400 '9' ++ "+1/0".toList, [],
      Gen.binary '+' _ (List.replicate 400 '9') [] _ ['1', '/', '0'] (by decide)
        (Gen.up 1 _ _ (by decide) (Gen.up 2 _ _ (by decide)
          (Gen.number [] (List.replicate 400 '9') (by simp) (by decide!))))
        (by simp)
        (Gen.binary '/' _ ['1'] [] _ ['0'] (by decide)
          (Gen.up 2 _ _ (by decide) (Gen.number [] ['1'] (by simp) (by decide)))
          (by simp) (Gen.number [] ['0'] (by simp) (by decide))),
      by simp, by simp⟩,
    by decide!, by decide!⟩

/-! ## Chains of one priority and single literals -/

theorem isRun_ne_nil {n : GoString} (h : isRun n = true) : n ≠ [] := by
  rintro rfl
  revert h
  decide

theorem isRun_numChar {n : GoString} (h : isRun n = true) : ∀ c ∈ n, isNumChar c = true := by
  simp only [isRun, Bool.and_eq_true, List.all_eq_true] at h
  exact h.2

theorem run_not_opToken {n : GoString} (hall : ∀ c ∈ n, isNumChar c = true) :
    isOpToken n = false := by
  cases hop : isOpToken n with
  | false => rfl
  | true =>
    simp only [isOpToken, decide_eq_true_eq] at hop
    rcases hop with h1 | h1 | h1 | h1 <;> subst h1 <;>
      exact absurd (hall _ (List.mem_cons_self _ _)) (by decide)

/-- The scan of the rest of a chain, with the previous operator of the chain
alone on the stack. -/
theorem scan_chain {α : Type} : ∀ (tail : List (Char × GoString × α)) (n : GoString)
    (rpn : List GoString) (prev : Char), isRun n = true →
    (∀ link ∈ tail, isOperator link.1 = true ∧ isRun link.2.1 = true) →
    (∀ link ∈ tail, priority link.1 = priority prev) → isOperator prev = true →
    scan (chainText n tail) rpn [prev] = (rpn ++ n :: [prev] :: chainOut tail, none) := by
  intro tail
  induction tail with
  | nil =>
    intro n rpn prev hn _ _ hprev
    have := scan_run n [] rpn [prev] (isRun_ne_nil hn) (isRun_numChar hn) rfl
    rw [List.append_nil] at this
    rw [chainText, this, scan_nil,
      drain_pending [prev] _ (by
        intro c hc
        have : c = prev := by simpa using hc
        subst this
        exact isOperator_ne_open hprev)]
    simp [chainOut]
  | cons link rest ih =>
    intro n rpn prev hn htail hprio hprev
    obtain ⟨op, m, v⟩ := link
    have hlink := htail (op, m, v) (List.mem_cons_self _ _)
    have hop : isOperator op = true := hlink.1
    have hm : isRun m = true := hlink.2
    have hpr : priority op = priority prev := hprio (op, m, v) (List.mem_cons_self _ _)
    have hx : (op :: chainText m rest).takeWhile isNumChar = [] := by
      simp [List.takeWhile_cons, isOperator_not_numChar hop]
    have hpush := pushOperator_pending op [] (by simp) [prev] (rpn ++ [n]) (by
      intro c hc
      have : c = prev := by simpa using hc
      subst this
      omega)
    rw [List.append_nil] at hpush
    rw [chainText, scan_run n _ rpn [prev] (isRun_ne_nil hn) (isRun_numChar hn) hx,
      scan_operator op _ _ _ hop, hpush]
    simp only []
    rw [ih m _ op hm (fun l hl => htail l (List.mem_cons_of_mem _ hl))
      (fun l hl => by
        rw [hprio l (List.mem_cons_of_mem _ hl), hpr]) hop]
    simp [chainOut]

theorem convertToRPN_chain {α : Type} (n0 : GoString) (tail : List (Char × GoString × α))
    (hn0 : isRun n0 = true)
    (htail : ∀ link ∈ tail, isOperator link.1 = true ∧ isRun link.2.1 = true)
    (hprio : ∀ link ∈ tail, ∀ link' ∈ tail, priority link.1 = priority link'.1) :
    convertToRPN (chainText n0 tail) = (n0 :: chainOut tail, none) := by
  rw [convertToRPN_eq_scan]
  cases tail with
  | nil =>
    have := scan_run n0 [] [] [] (isRun_ne_nil hn0) (isRun_numChar hn0) rfl
    rw [List.append_nil] at this
    rw [chainText, this, scan_nil]
    rfl
  | cons link rest =>
    obtain ⟨op, m, v⟩ := link
    have hlink := htail (op, m, v) (List.mem_cons_self _ _)
    have hx : (op :: chainText m rest).takeWhile isNumChar = [] := by
      simp [List.takeWhile_cons, isOperator_not_numChar hlink.1]
    rw [chainText, scan_run n0 _ [] [] (isRun_ne_nil hn0) (isRun_numChar hn0) hx,
      scan_operator op _ _ _ hlink.1]
    simp only [pushOperator]
    rw [scan_chain rest m _ op hlink.2 (fun l hl => htail l (List.mem_cons_of_mem _ hl))
      (fun l hl => hprio l (List.mem_cons_of_mem _ hl) _ (List.mem_cons_self _ _)) hlink.1]
    simp [chainOut]

theorem runStack_chain {α : Type} (F : FloatOps α) : ∀ (tail : List (Char × GoString × α))
    (acc : α),
    (∀ link ∈ tail, isOperator link.1 = true ∧ isRun link.2.1 = true) →
    (∀ link ∈ tail, F.parseFloat link.2.1 = some link.2.2) →
    (∀ link ∈ tail, link.1 = '/' → F.isZero link.2.2 = false) →
    runStack F (chainOut tail) [acc] = .ok [chainValue F acc tail] := by
  intro tail
  induction tail with
  | nil => intro acc _ _ _; rfl
  | cons link rest ih =>
    intro acc htail hparse hdiv
    obtain ⟨op, m, v⟩ := link
    have hlink := htail (op, m, v) (List.mem_cons_self _ _)
    have hp : F.parseFloat m = some v := hparse (op, m, v) (List.mem_cons_self _ _)
    have hd : ¬ (op = '/' ∧ F.isZero v = true) := by
      rintro ⟨h1, h2⟩
      have := hdiv (op, m, v) (List.mem_cons_self _ _) h1
      simp only [] at this
      rw [h2] at this
      exact absurd this (by simp)
    simp only [chainOut, runStack,
      stepStack_lit F [acc] m (run_not_opToken (isRun_numChar hlink.2)), hp,
      stepStack_operator F op hlink.1, hd, if_false]
    rw [ih _ (fun l hl => htail l (List.mem_cons_of_mem _ hl))
      (fun l hl => hparse l (List.mem_cons_of_mem _ hl))
      (fun l hl => hdiv l (List.mem_cons_of_mem _ hl))]
    simp [chainValue]

/-- C7 (amended). For numeric literals `n0..nk` and operators `op1..opk` of
one priority, `convertToRPN(n0 op1 n1 ... opk nk)` is
`[n0, n1, op1, ..., nk, opk]`; and when `ParseFloat` accepts the literals, with
values `v0..vk`, and no divisor is zero, `Calc` returns the left fold
`(((v0 op1 v1) op2 v2) ... opk vk)`. -/
theorem C7_left_associativity {α : Type} (F : FloatOps α) (n0 : GoString) (v0 : α)
    (tail : List (Char × GoString × α)) (hn0 : isRun n0 = true)
    (htail : ∀ link ∈ tail, isOperator link.1 = true ∧ isRun link.2.1 = true)
    (hprio : ∀ link ∈ tail, ∀ link' ∈ tail, priority link.1 = priority link'.1) :
    convertToRPN (chainText n0 tail) = (n0 :: chainOut tail, none)
      ∧ (F.parseFloat n0 = some v0 →
          (∀ link ∈ tail, F.parseFloat link.2.1 = some link.2.2) →
          (∀ link ∈ tail, link.1 = '/' → F.isZero link.2.2 = false) →
          Calc F (chainText n0 tail) = (chainValue F v0 tail, none)) := by
  have hconv := convertToRPN_chain n0 tail hn0 htail hprio
  refine ⟨hconv, ?_⟩
  intro hp0 hparse hdiv
  rw [Calc_of_convert_ok F _ _ hconv, calculateRPN, calcLoop_eq_run, runStack,
    stepStack_lit F [] n0 (run_not_opToken (isRun_numChar hn0)), hp0]
  simp only []
  rw [runStack_chain F tail v0 htail hparse hdiv]

set_option maxRecDepth 100000 in
theorem C7_left_associativity_witness :
    chainText ['8'] [('-', ['3'], F64.ofNat 3), ('-', ['2'], F64.ofNat 2)] = "8-3-2".toList
      ∧ convertToRPN "8-3-2".toList = ([['8'], ['3'], ['-'], ['2'], ['-']], none)
      ∧ Calc go64 "8-3-2".toList = (F64.ofNat 3, none)
      ∧ Calc go64 "8-3-2".toList ≠ (F64.ofNat 7, none) :=
  have h := C7_left_associativity go64 ['8'] (F64.ofNat 8)
    [('-', ['3'], F64.ofNat 3), ('-', ['2'], F64.ofNat 2)] (by decide) (by decide) (by decide)
  have hc : Calc go64 "8-3-2".toList = (F64.ofNat 3, none) :=
    (h.2 (by decide!) (by decide!) (by decide!)).trans (by decide!)
  ⟨rfl, h.1, hc, by rw [hc]; decide!⟩

set_option maxRecDepth 100000 in
/-- C7 as stated fails: in `99...9-1`, with 400 nines, both literals are
numbers and the conversion is the expected one, but `ParseFloat` rejects the
first literal with a range error and `Calc` returns `ErrAllowed`, not the
difference. -/
theorem C7_counterexample :
    isNumber (List.replicate 400 '9') = true ∧ isNumber ['1'] = true
      ∧ chainText (List.replicate 400 '9') [('-', ['1'], F64.ofNat 1)]
          = List.replicate 400 '9' ++ "-1".toList
      ∧ convertToRPN (List.replicate 400 '9' ++ "-1".toList)
          = ([List.replicate 400 '9', ['1'], ['-']], none)
      ∧ Calc go64 (List.replicate 400 '9' ++ "-1".toList) = (go64.zero, some ErrAllowed) := by
  decide!

/-- C9 (amended). On a non-empty string `s` of digits and `'.'`,
`convertToRPN(s)` succeeds with the single token `[s]`, and `Calc(s)` is what
`ParseFloat` makes of `s`: the `float64` nearest to the number denoted by `s`
when `s` has at least one digit and at most one `'.'` and that float is
finite, and `ErrAllowed` otherwise. -/
theorem C9_numeric_literal {α : Type} (F : FloatOps α) (s : GoString) (hne : s ≠ [])
    (hs : ∀ c ∈ s, isNumChar c = true) :
    convertToRPN s = ([s], none)
      ∧ Calc F s
          = (match F.parseFloat s with
            | some v => (v, none)
            | none => (F.zero, some ErrAllowed))
      ∧ Calc go64 s
          = (if isNumber s = true then
              match F64.decimal s with
              | .fin neg k => (.fin neg k, none)
              | _ => (go64.zero, some ErrAllowed)
            else (go64.zero, some ErrAllowed)) := by
  have hconv : convertToRPN s = ([s], none) := by
    have := scan_run s [] [] [] hne hs rfl
    rw [List.append_nil] at this
    rw [convertToRPN_eq_scan, this, scan_nil]
    rfl
  have hcalc : ∀ {β : Type} (G : FloatOps β), Calc G s
      = (match G.parseFloat s with
        | some v => (v, none)
        | none => (G.zero, some ErrAllowed)) := by
    intro β G
    rw [Calc_of_convert_ok G s _ hconv, calculateRPN, calcLoop_cons,
      stepStack_lit G [] s (run_not_opToken hs)]
    cases G.parseFloat s <;> simp [calcLoop]
  refine ⟨hconv, hcalc F, ?_⟩
  rw [hcalc go64]
  have hgo : go64.parseFloat s = F64.parseFloat s := rfl
  rw [hgo]
  unfold F64.parseFloat
  by_cases hnum : isNumber s = true
  · rw [if_pos hnum, if_pos hnum]
    cases F64.decimal s <;> rfl
  · rw [if_neg hnum, if_neg hnum]

set_option maxRecDepth 100000 in
theorem C9_numeric_literal_witness :
    convertToRPN "1.2.3".toList = (["1.2.3".toList], none)
      ∧ Calc go64 "1.2.3".toList = (go64.zero, some ErrAllowed)
      ∧ Calc go64 "..".toList = (go64.zero, some ErrAllowed)
      ∧ Calc go64 ".".toList = (go64.zero, some ErrAllowed)
      ∧ Calc go64 "2.5".toList = (F64.decimal "2.5".toList, none) :=
  ⟨(C9_numeric_literal go64 "1.2.3".toList (by decide) (by decide)).1,
    (C9_numeric_literal go64 "1.2.3".toList (by decide) (by decide)).2.2.trans (by decide!),
    (C9_numeric_literal go64 "..".toList (by decide) (by decide)).2.2.trans (by decide!),
    (C9_numeric_literal go64 ".".toList (by decide) (by decide)).2.2.trans (by decide!),
    (C9_numeric_literal go64 "2.5".toList (by decide) (by decide)).2.2.trans (by decide!)⟩

set_option maxRecDepth 100000 in
/-- C9 as stated fails: `1` followed by 309 zeros has a digit and no `'.'`, but
it is too large for `float64`; `ParseFloat` returns a range error and `Calc`
returns `ErrAllowed` instead of a number. -/
theorem C9_counterexample :
    isNumber ('1' :: List.replicate 309 '0') = true
      ∧ convertToRPN ('1' :: List.replicate 309 '0') = (['1' :: List.replicate 309 '0'], none)
      ∧ Calc go64 ('1' :: List.replicate 309 '0') = (go64.zero, some ErrAllowed) := by
  decide!

/-! ## Operand order and the composition of the two stages -/

/-- C11. For valid numeric literals `x` and `y` (elements that are not
operators and that `ParseFloat` accepts) with values `a` and `b`,
`calculateRPN([x, y, "+"]) = a+b`, `calculateRPN([x, y, "-"]) = a-b`,
`calculateRPN([x, y, "*"]) = a*b` and, when `b` is not zero,
`calculateRPN([x, y, "/"]) = a/b`: the value pushed last is the right
operand and the one below it the left operand. -/
theorem C11_operand_order {α : Type} (F : FloatOps α) (x y : GoString) (a b : α)
    (hx : isOpToken x = false) (hy : isOpToken y = false)
    (hpx : F.parseFloat x = some a) (hpy : F.parseFloat y = some b) :
    calculateRPN F [x, y, ['+']] = (F.add a b, none)
      ∧ calculateRPN F [x, y, ['-']] = (F.sub a b, none)
      ∧ calculateRPN F [x, y, ['*']] = (F.mul a b, none)
      ∧ (F.isZero b = false → calculateRPN F [x, y, ['/']] = (F.div a b, none))
      ∧ runStack F [x, y] [] = .ok [b, a] := by
  have hrun : runStack F [x, y] [] = .ok [b, a] := by
    simp [runStack, stepStack_lit, hx, hy, hpx, hpy]
  have hcalc : ∀ op : GoString, calculateRPN F [x, y, op]
      = match stepStack F [b, a] op with
        | .ok [v] => (v, none)
        | .ok _ => (F.zero, some ErrValues)
        | .error e => (F.zero, some e) := by
    intro op
    have happ := runStack_append F [x, y] [op] []
    rw [hrun] at happ
    simp only [List.cons_append, List.nil_append] at happ
    rw [calculateRPN, calcLoop_eq_run, happ, runStack]
    cases stepStack F [b, a] op <;> rfl
  refine ⟨?_, ?_, ?_, ?_, hrun⟩
  · rw [hcalc, stepStack_operator F '+' (by decide)]
    simp [applyOp]
  · rw [hcalc, stepStack_operator F '-' (by decide)]
    simp [applyOp]
  · rw [hcalc, stepStack_operator F '*' (by decide)]
    simp [applyOp]
  · intro hb
    rw [hcalc, stepStack_operator F '/' (by decide)]
    simp [applyOp, hb]

set_option maxRecDepth 100000 in
theorem C11_operand_order_witness :
    calculateRPN go64 [['8'], ['2'], ['-']] = (F64.ofNat 6, none)
      ∧ calculateRPN go64 [['8'], ['2'], ['/']] = (F64.ofNat 4, none) :=
  have h := C11_operand_order go64 ['8'] ['2'] (F64.ofNat 8) (F64.ofNat 2)
    (by decide) (by decide) (by decide!) (by decide!)
  ⟨h.2.1.trans (by decide!), (h.2.2.2.1 (by decide!)).trans (by decide!)⟩

/-- For `float64` a literal that `ParseFloat` accepts is never an operator
string. -/
theorem go64_parse_not_opToken (t : GoString) (v : F64) (h : go64.parseFloat t = some v) :
    isOpToken t = false := by
  have hp : F64.parseFloat t = some v := h
  unfold F64.parseFloat at hp
  by_cases hn : isNumber t = true
  · exact isNumber_not_opToken hn
  · rw [if_neg hn] at hp
    simp at hp

theorem scanErr_cases : ∀ (s : GoString) (depth : Nat),
    scanErr depth s = none ∨ scanErr depth s = some ErrBrackets
      ∨ scanErr depth s = some ErrAllowed := by
  intro s
  induction s with
  | nil =>
    intro depth
    by_cases h : depth = 0 <;> simp [scanErr, h]
  | cons c cs ih =>
    intro depth
    simp only [scanErr]
    split_ifs
    · exact ih _
    · exact Or.inr (Or.inl rfl)
    · exact ih _
    · exact ih _
    · exact Or.inr (Or.inr rfl)

theorem scanErr_disallowed : ∀ (s : GoString) (depth : Nat),
    (∃ c ∈ s, isAllowed c = false) → scanErr depth s ≠ none := by
  intro s
  induction s with
  | nil => intro depth h; simp at h
  | cons c cs ih =>
    intro depth h
    have hrest : isAllowed c = true → ∃ x ∈ cs, isAllowed x = false := by
      intro hc
      obtain ⟨x, hx, hxa⟩ := h
      rcases List.mem_cons.mp hx with rfl | hx
      · rw [hc] at hxa
        exact absurd hxa (by simp)
      · exact ⟨x, hx, hxa⟩
    simp only [scanErr]
    split_ifs with h1 h2 h3 h4
    · subst h1
      exact ih _ (hrest (by decide))
    · simp
    · subst h2
      exact ih _ (hrest (by decide))
    · exact ih _ (hrest h4)
    · simp

theorem calcLoop_err_zero {α : Type} (F : FloatOps α) (rpn : List GoString) (st : List α)
    (h : (calcLoop F rpn st).2 ≠ none) : (calcLoop F rpn st).1 = F.zero := by
  rw [calcLoop_eq_run] at h ⊢
  cases hrun : runStack F rpn st with
  | error e => rfl
  | ok st' =>
    rw [hrun] at h
    rcases st' with _ | ⟨v, _ | ⟨w, l⟩⟩
    · rfl
    · simp at h
    · rfl

/-- C18. If `convertToRPN` returns an error then `Calc` returns `0` and that
error, and otherwise `Calc` returns what `calculateRPN` returns on the
converted sequence; so an expression with an unmatched bracket or a disallowed
character yields `ErrBrackets` or `ErrAllowed`, never `ErrDivisionByZero` or
`ErrValues` (`"2/0)"` gives `ErrBrackets`, `"2/0a"` gives `ErrAllowed`), and
every error result carries the value `0`. -/
theorem C18_stage_composition {α : Type} (F : FloatOps α) (s : GoString) :
    (∀ e : CalcError, (convertToRPN s).2 = some e → Calc F s = (F.zero, some e))
      ∧ ((convertToRPN s).2 = none → Calc F s = calculateRPN F (convertToRPN s).1)
      ∧ (((∃ c ∈ s, isAllowed c = false) ∨ ¬ Balanced s) →
          ((Calc F s).2 = some ErrBrackets ∨ (Calc F s).2 = some ErrAllowed)
            ∧ (Calc F s).2 ≠ some ErrDivisionByZero ∧ (Calc F s).2 ≠ some ErrValues)
      ∧ ((Calc F s).2 ≠ none → (Calc F s).1 = F.zero)
      ∧ Calc F "2/0)".toList = (F.zero, some ErrBrackets)
      ∧ Calc F "2/0a".toList = (F.zero, some ErrAllowed) := by
  have hok : (convertToRPN s).2 = none → Calc F s = calculateRPN F (convertToRPN s).1 := by
    intro h
    exact Calc_of_convert_ok F s _ (Prod.ext rfl h)
  refine ⟨fun e h => Calc_of_convert_err F s e h, hok, ?_, ?_,
    Calc_of_convert_err F _ _ (by decide), Calc_of_convert_err F _ _ (by decide)⟩
  · intro h
    have hne : scanErr 0 s ≠ none := by
      by_cases hd : ∃ c ∈ s, isAllowed c = false
      · exact scanErr_disallowed s 0 hd
      · have hall : ∀ c ∈ s, isAllowed c = true := by
          intro c hc
          by_contra hca
          exact hd ⟨c, hc, by simpa using hca⟩
        have hnb : ¬ Balanced s := by
          rcases h with h | h
          · exact absurd h hd
          · exact h
        rw [balanced_iff] at hnb
        rw [(scanErr_allowed s 0 hall).2 hnb]
        simp
    have herr := (convertToRPN_err s).1
    rcases scanErr_cases s 0 with h0 | h1 | h2
    · exact absurd h0 hne
    · have := Calc_of_convert_err F s _ (herr.trans h1)
      rw [this]
      simp
    · have := Calc_of_convert_err F s _ (herr.trans h2)
      rw [this]
      simp
  · intro h
    cases hc : (convertToRPN s).2 with
    | some e => rw [Calc_of_convert_err F s e hc]
    | none =>
      rw [hok hc] at h ⊢
      exact calcLoop_err_zero F _ [] h

/-! ## Redundant parentheses -/

theorem span_append_nonnum (y : GoString) (hy : y.takeWhile isNumChar = []) :
    ∀ cs : GoString, (cs ++ y).takeWhile isNumChar = cs.takeWhile isNumChar
      ∧ (cs ++ y).dropWhile isNumChar = cs.dropWhile isNumChar ++ y := by
  intro cs
  induction cs with
  | nil => exact ⟨by simpa using hy, by simpa using dropWhile_of_takeWhile_nil hy⟩
  | cons c cs ih =>
    by_cases hc : isNumChar c = true
    · simp [List.takeWhile_cons, List.dropWhile_cons, hc, ih.1, ih.2]
    · simp [List.takeWhile_cons, List.dropWhile_cons, hc]

theorem priority_open : priority '(' = 0 := by decide

theorem pushOperator_base (op : Char) (hop : isOperator op = true) (base : List Char) :
    ∀ (ops : List Char) (rpn : List GoString),
      pushOperator op rpn (ops ++ '(' :: base)
        = ((pushOperator op rpn ops).1, (pushOperator op rpn ops).2 ++ '(' :: base) := by
  intro ops
  induction ops with
  | nil =>
    intro rpn
    have h1 := priority_operator hop
    have h0 := priority_open
    have : ¬ priority '(' ≥ priority op := by omega
    simp [pushOperator, this]
  | cons top rest ih =>
    intro rpn
    by_cases h : priority top ≥ priority op
    · rw [List.cons_append, pushOperator, if_pos h, ih, pushOperator, if_pos h]
    · rw [List.cons_append, pushOperator, if_neg h, pushOperator, if_neg h]
      rfl

theorem popToOpen_base (base : List Char) : ∀ (ops : List Char) (rpn : List GoString)
    (x : Char) (rest : List Char), (popToOpen rpn ops).2 = x :: rest →
      popToOpen rpn (ops ++ '(' :: base)
        = ((popToOpen rpn ops).1, x :: (rest ++ '(' :: base)) := by
  intro ops
  induction ops with
  | nil => intro rpn x rest h; simp [popToOpen] at h
  | cons top tl ih =>
    intro rpn x rest h
    by_cases ht : top ≠ '('
    · rw [popToOpen, if_pos ht] at h
      rw [List.cons_append, popToOpen, if_pos ht, ih _ _ _ h, popToOpen, if_pos ht]
    · rw [popToOpen, if_neg ht] at h
      simp only [List.cons.injEq] at h
      obtain ⟨rfl, rfl⟩ := h
      rw [List.cons_append, popToOpen, if_neg ht, popToOpen, if_neg ht]

theorem drain_ok : ∀ (ops : List Char) (rpn out : List GoString), drain rpn ops = (out, none) →
    out = rpn ++ ops.map (fun c => [c]) ∧ ∀ c ∈ ops, c ≠ '(' := by
  intro ops
  induction ops with
  | nil =>
    intro rpn out h
    simp only [drain, Prod.mk.injEq, and_true] at h
    simp [h]
  | cons top rest ih =>
    intro rpn out h
    by_cases ht : top = '('
    · simp [drain, ht] at h
    · rw [drain, if_neg ht] at h
      obtain ⟨h1, h2⟩ := ih _ _ h
      refine ⟨by simp [h1], ?_⟩
      intro c hc
      rcases List.mem_cons.mp hc with rfl | hc
      · exact ht
      · exact h2 c hc

/-- A scan that succeeds from a stack `ops` runs in the same way above an
extra `'('`, and the `')'` that follows pops what the final drain would have
moved. -/
theorem scan_wrapped (base : List Char) (x : GoString) (n : Nat) :
    ∀ (s : GoString) (rpn : List GoString) (ops : List Char) (out : List GoString),
      s.length ≤ n → scan s rpn ops = (out, none) →
      scan (s ++ ')' :: x) rpn (ops ++ '(' :: base) = scan x out base := by
  induction n with
  | zero =>
    intro s rpn ops out hn h
    have : s = [] := List.length_eq_zero.mp (Nat.le_zero.mp hn)
    subst this
    rw [scan_nil] at h
    obtain ⟨h1, h2⟩ := drain_ok ops rpn out h
    rw [List.nil_append, scan_close, popToOpen_pending base ops rpn h2, h1]
  | succ n ih =>
    intro s rpn ops out hn h
    cases s with
    | nil =>
      rw [scan_nil] at h
      obtain ⟨h1, h2⟩ := drain_ok ops rpn out h
      rw [List.nil_append, scan_close, popToOpen_pending base ops rpn h2, h1]
    | cons c cs =>
      have hcn : cs.length ≤ n := by simpa using hn
      by_cases hnum : isNumChar c = true
      · have hsp := span_append_nonnum (')' :: x) (by simp [List.takeWhile_cons]; decide) cs
        rw [scan_num c cs rpn ops hnum] at h
        rw [List.cons_append, scan_num c _ rpn _ hnum, hsp.1, hsp.2]
        exact ih _ _ _ _ (le_trans (List.dropWhile_sublist _).length_le hcn) h
      · by_cases hop : isOperator c = true
        · rw [scan_operator c cs rpn ops hop] at h
          rw [List.cons_append, scan_operator c _ rpn _ hop, pushOperator_base c hop base]
          exact ih _ _ _ _ hcn h
        · by_cases ho : c = '('
          · subst ho
            rw [scan_open] at h
            rw [List.cons_append, scan_open]
            exact ih _ _ ('(' :: ops) _ hcn h
          · by_cases hc : c = ')'
            · subst hc
              rw [scan_close] at h
              rw [List.cons_append, scan_close]
              cases hp : (popToOpen rpn ops).2 with
              | nil =>
                rw [hp] at h
                simp at h
              | cons y rest =>
                rw [hp] at h
                rw [popToOpen_base base ops rpn y rest hp]
                exact ih _ _ _ _ hcn h
            · by_cases hs : isSpace c = true
              · rw [scan_space c cs rpn ops hs] at h
                rw [List.cons_append, scan_space c _ rpn _ hs]
                exact ih _ _ _ _ hcn h
              · have hall : isAllowed c = false := by
                  simp [isAllowed, hnum, hop, ho, hc, hs]
                rw [scan_disallowed c cs rpn ops hall] at h
                simp at h

/-- C15. For every expression `E` on which `convertToRPN` succeeds,
`convertToRPN("(" ++ E ++ ")")` succeeds and returns the same postfix
sequence, hence `Calc("(" ++ E ++ ")") = Calc(E)`. -/
theorem C15_redundant_parentheses {α : Type} (F : FloatOps α) (s : GoString)
    (h : (convertToRPN s).2 = none) :
    (convertToRPN ('(' :: (s ++ [')']))).2 = none
      ∧ convertToRPN ('(' :: (s ++ [')'])) = convertToRPN s
      ∧ Calc F ('(' :: (s ++ [')'])) = Calc F s := by
  obtain ⟨out, hout⟩ : ∃ out, convertToRPN s = (out, none) :=
    ⟨(convertToRPN s).1, Prod.ext rfl h⟩
  have key : convertToRPN ('(' :: (s ++ [')'])) = convertToRPN s := by
    have hw := scan_wrapped [] [] s.length s [] [] out le_rfl hout
    rw [List.nil_append] at hw
    rw [hout, convertToRPN_eq_scan, scan_open, hw, scan_nil]
    rfl
  exact ⟨by rw [key, h], key, Calc_congr F key⟩

set_option maxRecDepth 100000 in
theorem C15_redundant_parentheses_witness :
    (convertToRPN "1+2*3".toList).2 = none
      ∧ convertToRPN "(1+2*3)".toList = ([['1'], ['2'], ['3'], ['*'], ['+']], none)
      ∧ Calc go64 "(1+2*3)".toList = (F64.ofNat 7, none) :=
  have h : (convertToRPN "1+2*3".toList).2 = none := by decide
  ⟨h, (C15_redundant_parentheses go64 "1+2*3".toList h).2.1.trans (by decide),
    (C15_redundant_parentheses go64 "1+2*3".toList h).2.2.trans (by decide!)⟩

/-! ## The operator stack -/

/-- The loop of `convertToRPN` is the iteration of `scanStep`. -/
theorem scan_step (c : Char) (cs : GoString) (rpn : List GoString) (ops : List Char) :
    scan (c :: cs) rpn ops
      = match scanStep c cs rpn ops with
        | .ok state => scan state.1 state.2.1 state.2.2
        | .error e => ([], some e) := by
  unfold scanStep
  by_cases hnum : isNumChar c = true
  · rw [scan_num c cs rpn ops hnum]
    simp [hnum, List.dropWhile_cons, List.takeWhile_cons]
  · by_cases hop : isOperator c = true
    · rw [scan_operator c cs rpn ops hop]
      simp [hnum, hop]
    · by_cases ho : c = '('
      · subst ho
        rw [scan_open]
        simp [hnum, hop]
      · by_cases hc : c = ')'
        · subst hc
          rw [scan_close]
          simp only [hnum, hop, ho, if_false, if_true]
          cases (popToOpen rpn ops).2 <;> rfl
        · by_cases hs : isSpace c = true
          · rw [scan_space c cs rpn ops hs]
            simp [hnum, hop, ho, hc, hs]
          · have hall : isAllowed c = false := by
              simp [isAllowed, hnum, hop, ho, hc, hs]
            rw [scan_disallowed c cs rpn ops hall]
            simp [hnum, hop, ho, hc, hs]

theorem isOperator_of_priority {c : Char} (h : 1 ≤ priority c) : isOperator c = true := by
  unfold priority at h
  split_ifs at h with h1 h2 h3 h4
  · subst h1; decide
  · subst h2; decide
  · subst h3; decide
  · subst h4; decide
  · omega

/-- What `pushOperator` does: it moves a run of operators from the top of the
stack to the output, never a `'('`, and puts `op` on what is left. -/
theorem pushOperator_split (op : Char) (hop : isOperator op = true) :
    ∀ (ops : List Char) (rpn : List GoString),
      ∃ popped kept : List Char, ops = popped ++ kept
        ∧ (∀ c ∈ popped, isOperator c = true)
        ∧ (∀ c ∈ kept.head?, priority c < priority op)
        ∧ pushOperator op rpn ops = (rpn ++ popped.map (fun c => [c]), op :: kept) := by
  intro ops
  induction ops with
  | nil =>
    intro rpn
    exact ⟨[], [], rfl, by simp, by simp, by simp [pushOperator]⟩
  | cons top rest ih =>
    intro rpn
    by_cases h : priority top ≥ priority op
    · obtain ⟨popped, kept, h1, h2, h3, h4⟩ := ih (rpn ++ [[top]])
      refine ⟨top :: popped, kept, by rw [h1]; rfl, ?_, h3, ?_⟩
      · intro c hc
        rcases List.mem_cons.mp hc with rfl | hc
        · exact isOperator_of_priority (le_trans (priority_operator hop) h)
        · exact h2 c hc
      · rw [pushOperator, if_pos h, h4]
        simp
    · refine ⟨[], top :: rest, rfl, by simp, ?_, ?_⟩
      · intro c hc
        simp only [List.head?_cons, Option.mem_def, Option.some.injEq] at hc
        subst hc
        omega
      · rw [pushOperator, if_neg h]
        simp

theorem popToOpen_split : ∀ (ops : List Char) (rpn : List GoString) (x : Char)
    (rest : List Char), (popToOpen rpn ops).2 = x :: rest →
      ∃ popped : List Char, ops = popped ++ '(' :: rest ∧ x = '('
        ∧ (∀ c ∈ popped, c ≠ '(')
        ∧ (popToOpen rpn ops).1 = rpn ++ popped.map (fun c => [c]) := by
  intro ops
  induction ops with
  | nil => intro rpn x rest h; simp [popToOpen] at h
  | cons top tl ih =>
    intro rpn x rest h
    by_cases ht : top ≠ '('
    · rw [popToOpen, if_pos ht] at h
      obtain ⟨popped, h1, h2, h3, h4⟩ := ih _ _ _ h
      refine ⟨top :: popped, by rw [h1]; rfl, h2, ?_, ?_⟩
      · intro c hc
        rcases List.mem_cons.mp hc with rfl | hc
        · exact ht
        · exact h3 c hc
      · rw [popToOpen, if_pos ht, h4]
        simp
    · rw [popToOpen, if_neg ht] at h
      simp only [List.cons.injEq] at h
      obtain ⟨rfl, rfl⟩ := h
      have ht' : top = '(' := by simpa using ht
      refine ⟨[], by simp [ht'], ht', by simp, ?_⟩
      rw [popToOpen, if_neg ht]
      simp

theorem segment_cons (c : Char) (t : List Char) :
    segment (c :: t) = if c = '(' then [] else c :: segment t := by
  by_cases h : c = '(' <;> simp [segment, List.takeWhile_cons, h]

theorem stackInv_suffix {pre pre' : GoString} {above ops : List Char}
    (h : StackInv pre (above ++ ops))
    (hcount : ops.count '(' + pre'.count ')' = pre'.count '(') : StackInv pre' ops := by
  obtain ⟨h1, _, h3⟩ := h
  refine ⟨fun c hc => h1 c (List.mem_append_right _ hc), hcount, ?_⟩
  intro a b hab
  exact h3 (above ++ a) b (by rw [hab, List.append_assoc])

/-- One iteration of the loop keeps the invariant of the operator stack. -/
theorem scanStep_inv (c : Char) (cs : GoString) (rpn : List GoString) (ops : List Char)
    (rest : GoString) (rpn' : List GoString) (ops' : List Char) (pre : GoString)
    (hstep : scanStep c cs rpn ops = .ok (rest, rpn', ops')) (hinv : StackInv pre ops) :
    ∃ consumed : GoString, c :: cs = consumed ++ rest ∧ StackInv (pre ++ consumed) ops' := by
  by_cases hnum : isNumChar c = true
  · rw [scanStep, if_pos hnum] at hstep
    simp only [Except.ok.injEq, Prod.mk.injEq] at hstep
    obtain ⟨h1, _, h3⟩ := hstep
    subst h1 h3
    refine ⟨(c :: cs).takeWhile isNumChar, by simp, hinv.1, ?_, hinv.2.2⟩
    have hno : ∀ x ∈ (c :: cs).takeWhile isNumChar, isNumChar x = true :=
      fun x hx => List.mem_takeWhile_imp hx
    have h0 : ((c :: cs).takeWhile isNumChar).count '(' = 0 :=
      List.count_eq_zero.mpr (fun hm => absurd (hno _ hm) (by decide))
    have h0' : ((c :: cs).takeWhile isNumChar).count ')' = 0 :=
      List.count_eq_zero.mpr (fun hm => absurd (hno _ hm) (by decide))
    rw [List.count_append, List.count_append, h0, h0']
    exact hinv.2.1
  · by_cases hop : isOperator c = true
    · rw [scanStep, if_neg hnum, if_pos hop] at hstep
      simp only [Except.ok.injEq, Prod.mk.injEq] at hstep
      obtain ⟨h1, _, h3⟩ := hstep
      subst h1
      obtain ⟨popped, kept, hsplit, _, hhead, hpush⟩ := pushOperator_split c hop ops rpn
      rw [hpush] at h3
      simp only [] at h3
      subst h3
      rw [hsplit] at hinv
      have hkept : StackInv pre kept := by
        refine stackInv_suffix hinv ?_
        have := pushOperator_count c hop ops rpn
        rw [hpush, hsplit] at this
        simp only [List.count_cons_of_ne (isOperator_ne_open hop).symm] at this
        rw [this]
        exact hinv.2.1
      refine ⟨[c], rfl, ?_, ?_, ?_⟩
      · intro x hx
        rcases List.mem_cons.mp hx with rfl | hx
        · exact Or.inl hop
        · exact hkept.1 x hx
      · have hc1 : c ≠ '(' := isOperator_ne_open hop
        have hc2 : c ≠ ')' := by rintro rfl; revert hop; decide
        rw [List.count_cons_of_ne hc1.symm, List.count_append, List.count_append,
          List.count_cons_of_ne hc1.symm, List.count_cons_of_ne hc2.symm]
        simpa using hkept.2.1
      · intro above below hab
        cases above with
        | nil =>
          simp only [List.nil_append] at hab
          subst hab
          rw [segment_cons, if_neg (isOperator_ne_open hop), List.pairwise_cons]
          have hseg := hkept.2.2 [] kept rfl
          refine ⟨?_, hseg⟩
          intro x hx
          cases kept with
          | nil => simp [segment] at hx
          | cons k ks =>
            have hk : priority k < priority c := hhead k (by simp)
            rw [segment_cons] at hx hseg
            by_cases hko : k = '('
            · simp [hko] at hx
            · rw [if_neg hko] at hx hseg
              rcases List.mem_cons.mp hx with rfl | hx
              · exact hk
              · have := (List.pairwise_cons.mp hseg).1 x hx
                omega
        | cons a above =>
          simp only [List.cons_append, List.cons.injEq] at hab
          exact hkept.2.2 above below hab.2
    · by_cases ho : c = '('
      · rw [scanStep, if_neg hnum, if_neg hop, if_pos ho] at hstep
        simp only [Except.ok.injEq, Prod.mk.injEq] at hstep
        obtain ⟨h1, _, h3⟩ := hstep
        subst h1 h3 ho
        refine ⟨['('], rfl, ?_, ?_, ?_⟩
        · intro x hx
          rcases List.mem_cons.mp hx with rfl | hx
          · exact Or.inr rfl
          · exact hinv.1 x hx
        · have := hinv.2.1
          simp only [List.count_cons_self, List.count_append, List.count_nil,
            List.count_cons_of_ne (show ')' ≠ '(' by decide)]
          omega
        · intro above below hab
          cases above with
          | nil =>
            simp only [List.nil_append] at hab
            subst hab
            simp [segment_cons]
          | cons a above =>
            simp only [List.cons_append, List.cons.injEq] at hab
            exact hinv.2.2 above below hab.2
      · by_cases hc : c = ')'
        · rw [scanStep, if_neg hnum, if_neg hop, if_neg ho, if_pos hc] at hstep
          cases hp : (popToOpen rpn ops).2 with
          | nil => rw [hp] at hstep; simp at hstep
          | cons x tl =>
            rw [hp] at hstep
            simp only [Except.ok.injEq, Prod.mk.injEq] at hstep
            obtain ⟨h1, _, h3⟩ := hstep
            subst h1 h3 hc
            obtain ⟨popped, hsplit, _, _, _⟩ := popToOpen_split ops rpn x tl hp
            have hcount := popToOpen_cons ops rpn x tl hp
            have h2 := hinv.2.1
            have hsuf : popped ++ '(' :: tl = (popped ++ ['(']) ++ tl := by simp
            rw [hsplit, hsuf] at hinv
            refine ⟨[')'], rfl, stackInv_suffix hinv ?_⟩
            simp only [List.count_cons_self, List.count_append, List.count_nil,
              List.count_cons_of_ne (show '(' ≠ ')' by decide)]
            omega
        · by_cases hs : isSpace c = true
          · rw [scanStep, if_neg hnum, if_neg hop, if_neg ho, if_neg hc,
              if_neg (by simp [hs])] at hstep
            simp only [Except.ok.injEq, Prod.mk.injEq] at hstep
            obtain ⟨h1, _, h3⟩ := hstep
            subst h1 h3
            refine ⟨[c], rfl, hinv.1, ?_, hinv.2.2⟩
            rw [List.count_append, List.count_append, List.count_cons_of_ne (Ne.symm ho),
              List.count_cons_of_ne (Ne.symm hc)]
            simpa using hinv.2.1
          · rw [scanStep, if_neg hnum, if_neg hop, if_neg ho, if_neg hc,
              if_pos (by simp [hs])] at hstep
            simp at hstep

theorem stateAfter_inv (s : GoString) : ∀ (k : Nat) (state : GoString × List GoString × List Char)
    (pre : GoString) (rest : GoString) (rpn : List GoString) (ops : List Char),
    s = pre ++ state.1 → StackInv pre state.2.2 → stateAfter k state = some (rest, rpn, ops) →
    ∃ pre' : GoString, s = pre' ++ rest ∧ StackInv pre' ops := by
  intro k
  induction k with
  | zero =>
    intro state pre rest rpn ops hs hinv h
    simp only [stateAfter, Option.some.injEq] at h
    subst h
    exact ⟨pre, hs, hinv⟩
  | succ k ih =>
    intro state pre rest rpn ops hs hinv h
    obtain ⟨input, rpn0, ops0⟩ := state
    cases input with
    | nil => simp [stateAfter] at h
    | cons c cs =>
      rw [stateAfter] at h
      cases hstep : scanStep c cs rpn0 ops0 with
      | error e => rw [hstep] at h; simp at h
      | ok st =>
        rw [hstep] at h
        obtain ⟨rest1, rpn1, ops1⟩ := st
        obtain ⟨consumed, hcons, hinv'⟩ := scanStep_inv c cs rpn0 ops0 rest1 rpn1 ops1 pre hstep hinv
        refine ih (rest1, rpn1, ops1) (pre ++ consumed) rest rpn ops ?_ hinv' h
        simp only [] at hs ⊢
        rw [hs, hcons, List.append_assoc]

theorem segment_length_le {ops : List Char} (hops : ∀ c ∈ ops, isOperator c = true ∨ c = '(')
    (hsorted : (segment ops).Pairwise (fun a b => priority b < priority a)) :
    (segment ops).length ≤ 2 := by
  have hmem : ∀ x ∈ segment ops, 1 ≤ priority x := by
    intro x hx
    have hx1 : x ∈ ops := (List.takeWhile_sublist _).subset hx
    have hx2 : x ≠ '(' := by simpa using List.mem_takeWhile_imp hx
    rcases hops x hx1 with h | h
    · exact priority_operator h
    · exact absurd h hx2
  match hseg : segment ops, hsorted, hmem with
  | [], _, _ => simp
  | [_], _, _ => simp
  | [_, _], _, _ => simp
  | a :: b :: c :: _, hs, hm =>
    have h1 : priority b < priority a := (List.pairwise_cons.mp hs).1 b (by simp)
    have h2 : priority c < priority b :=
      (List.pairwise_cons.mp (List.pairwise_cons.mp hs).2).1 c (by simp)
    have h3 : 1 ≤ priority c := hm c (by simp)
    have h4 := priority_le_two a
    omega

/-- C17. After every step of the scan of `convertToRPN` the operator stack
holds only `'+'`, `'-'`, `'*'`, `'/'` and `'('`, never `')'`; the number of
`'('` on it is the number of `'('` minus the number of `')'` in the scanned
prefix; the operators from any position of the stack down to the next `'('` or
to the bottom have strictly increasing priority from bottom to top, so there
are at most two of them; and `pushOperator` takes only operators off the
stack, never a `'('`. -/
theorem C17_operator_stack_invariant (s : GoString) (k : Nat) (rest : GoString)
    (rpn : List GoString) (ops : List Char)
    (h : stateAfter k (s, [], []) = some (rest, rpn, ops)) :
    (∃ pre : GoString, s = pre ++ rest
        ∧ ops.count '(' + pre.count ')' = pre.count '('
        ∧ ops.count '(' = pre.count '(' - pre.count ')')
      ∧ (∀ c ∈ ops, isOperator c = true ∨ c = '(') ∧ ')' ∉ ops
      ∧ (∀ above below : List Char, ops = above ++ below →
          (segment below).Pairwise (fun a b => priority b < priority a)
            ∧ (segment below).length ≤ 2)
      ∧ (∀ (op : Char) (out : List GoString) (stack : List Char), isOperator op = true →
          ∃ popped kept : List Char, stack = popped ++ kept ∧ '(' ∉ popped
            ∧ pushOperator op out stack = (out ++ popped.map (fun c => [c]), op :: kept)) := by
  obtain ⟨pre, hpre, hinv⟩ := stateAfter_inv s k (s, [], []) [] rest rpn ops rfl
    ⟨by simp, by simp, by
      intro above below hab
      have : below = [] := by
        cases above <;> cases below <;> simp_all
      subst this
      simp [segment]⟩ h
  obtain ⟨h1, h2, h3⟩ := hinv
  refine ⟨⟨pre, hpre, h2, by omega⟩, h1, ?_, ?_, ?_⟩
  · intro hm
    rcases h1 _ hm with h | h
    · revert h; decide
    · revert h; decide
  · intro above below hab
    refine ⟨h3 above below hab, segment_length_le ?_ (h3 above below hab)⟩
    intro c hc
    exact h1 c (by rw [hab]; exact List.mem_append_right _ hc)
  · intro op out stack hop
    obtain ⟨popped, kept, hs, hp, _, hpush⟩ := pushOperator_split op hop stack out
    refine ⟨popped, kept, hs, ?_, hpush⟩
    intro hm
    have := hp _ hm
    revert this
    decide

theorem C17_operator_stack_invariant_witness :
    stateAfter 6 ("1+(2*3".toList, [], []) = some ([], [['1'], ['2'], ['3']], ['*', '(', '+'])
      ∧ (segment ['*', '(', '+']).length ≤ 2 ∧ (segment ['+']).length ≤ 2
      ∧ ['*', '(', '+'].count '(' = 1 :=
  have h : stateAfter 6 ("1+(2*3".toList, [], [])
      = some ([], [['1'], ['2'], ['3']], ['*', '(', '+']) := by decide
  have hc := C17_operator_stack_invariant "1+(2*3".toList 6 [] _ _ h
  ⟨h, (hc.2.2.2.1 [] _ rfl).2, (hc.2.2.2.1 ['*', '('] ['+'] rfl).2, by decide⟩

/-! ## The shape of the postfix sequence -/

theorem runsAux_run : ∀ (s cur : GoString), cur ≠ [] →
    runsAux s cur = (cur ++ s.takeWhile isNumChar) :: runsAux (s.dropWhile isNumChar) [] := by
  intro s
  induction s with
  | nil =>
    intro cur hcur
    have : cur.isEmpty = false := by
      cases cur with
      | nil => exact absurd rfl hcur
      | cons a l => rfl
    simp [runsAux, this]
  | cons c cs ih =>
    intro cur hcur
    have hce : cur.isEmpty = false := by
      cases cur with
      | nil => exact absurd rfl hcur
      | cons a l => rfl
    by_cases hc : isNumChar c = true
    · rw [runsAux, if_pos hc, ih (cur ++ [c]) (by simp), List.takeWhile_cons_of_pos hc,
        List.dropWhile_cons_of_pos hc]
      simp
    · rw [runsAux, if_neg hc, List.takeWhile_cons_of_neg hc, List.dropWhile_cons_of_neg hc]
      simp [hce, runsAux, hc]

theorem numRuns_num (c : Char) (cs : GoString) (hc : isNumChar c = true) :
    numRuns (c :: cs)
      = (c :: cs.takeWhile isNumChar) :: numRuns (cs.dropWhile isNumChar) := by
  rw [numRuns, runsAux, if_pos hc, runsAux_run cs ([] ++ [c]) (by simp)]
  rfl

theorem numRuns_other (c : Char) (cs : GoString) (hc : isNumChar c = false) :
    numRuns (c :: cs) = numRuns cs := by
  simp [numRuns, runsAux, hc]

theorem runsAux_mem : ∀ (s cur : GoString), (∀ c ∈ cur, isNumChar c = true) →
    ∀ r ∈ runsAux s cur, r ≠ [] ∧ ∀ c ∈ r, isNumChar c = true := by
  intro s
  induction s with
  | nil =>
    intro cur hcur r hr
    cases cur with
    | nil => simp [runsAux] at hr
    | cons a l =>
      simp only [runsAux, List.isEmpty_cons, Bool.false_eq_true, if_false,
        List.mem_singleton] at hr
      subst hr
      exact ⟨by simp, hcur⟩
  | cons c cs ih =>
    intro cur hcur r hr
    by_cases hc : isNumChar c = true
    · rw [runsAux, if_pos hc] at hr
      refine ih (cur ++ [c]) ?_ r hr
      intro x hx
      rcases List.mem_append.mp hx with hx | hx
      · exact hcur x hx
      · have : x = c := by simpa using hx
        rw [this]
        exact hc
    · rw [runsAux, if_neg hc] at hr
      cases cur with
      | nil =>
        simp only [List.isEmpty_nil, if_true] at hr
        exact ih [] (by simp) r hr
      | cons a l =>
        simp only [List.isEmpty_cons, Bool.false_eq_true, if_false, List.mem_cons] at hr
        rcases hr with rfl | hr
        · exact ⟨by simp, hcur⟩
        · exact ih [] (by simp) r hr

theorem numRuns_mem (s : GoString) :
    ∀ r ∈ numRuns s, r ≠ [] ∧ ∀ c ∈ r, isNumChar c = true :=
  runsAux_mem s [] (by simp)

theorem isNumChar_not_operator {c : Char} (h : isNumChar c = true) : isOperator c = false := by
  cases hop : isOperator c with
  | false => rfl
  | true =>
    rw [isOperator_not_numChar hop] at h
    exact absurd h (by simp)

theorem opTokens_cons_operator (c : Char) (cs : GoString) (hc : isOperator c = true) :
    opTokens (c :: cs) = [c] :: opTokens cs := by
  simp [opTokens, List.filter_cons, hc]

theorem opTokens_cons_other (c : Char) (cs : GoString) (hc : isOperator c = false) :
    opTokens (c :: cs) = opTokens cs := by
  simp [opTokens, List.filter_cons, hc]

theorem opTokens_dropWhile : ∀ cs : GoString,
    opTokens (cs.dropWhile isNumChar) = opTokens cs := by
  intro cs
  induction cs with
  | nil => rfl
  | cons c cs ih =>
    by_cases hc : isNumChar c = true
    · rw [List.dropWhile_cons_of_pos hc, ih, opTokens_cons_other c cs (isNumChar_not_operator hc)]
    · rw [List.dropWhile_cons_of_neg hc]

theorem filter_literals_map (l : List Char) (hl : ∀ c ∈ l, isOperator c = true) :
    (l.map (fun c => [c])).filter (fun t => !isOpToken t) = [] := by
  rw [List.filter_eq_nil_iff]
  intro t ht
  obtain ⟨c, hc, rfl⟩ := List.mem_map.mp ht
  simp [isOpToken_singleton c (hl c hc)]

theorem filter_operators_self (l : List Char) (hl : ∀ c ∈ l, isOperator c = true) :
    l.filter isOperator = l :=
  List.filter_eq_self.mpr hl

theorem coe_cons_add (a : GoString) (l : List GoString) :
    ((a :: l : List GoString) : Multiset GoString) = {a} + (l : Multiset GoString) := by
  rw [Multiset.singleton_add]
  rfl

/-- The output of a successful scan: as a multiset, the output so far, the
numeric runs and the operators of the rest of the input, and the operators on
the stack; and its elements that are not operators are those of the output so
far followed by the numeric runs, in order. -/
theorem scan_tokens (n : Nat) : ∀ (s : GoString) (rpn : List GoString) (ops : List Char)
    (out : List GoString), s.length ≤ n → scan s rpn ops = (out, none) →
    (∀ c ∈ ops, isOperator c = true ∨ c = '(') →
    (out : Multiset GoString)
        = (rpn : Multiset GoString) + (numRuns s : Multiset GoString)
          + (opTokens s : Multiset GoString)
          + (((ops.filter isOperator).map (fun c => [c]) : List GoString) : Multiset GoString)
      ∧ out.filter (fun t => !isOpToken t) = rpn.filter (fun t => !isOpToken t) ++ numRuns s := by
  have hnil : ∀ (rpn : List GoString) (ops : List Char) (out : List GoString),
      scan [] rpn ops = (out, none) → (∀ c ∈ ops, isOperator c = true ∨ c = '(') →
      (out : Multiset GoString)
          = (rpn : Multiset GoString) + (numRuns [] : Multiset GoString)
            + (opTokens [] : Multiset GoString)
            + (((ops.filter isOperator).map (fun c => [c]) : List GoString)
                : Multiset GoString)
        ∧ out.filter (fun t => !isOpToken t)
            = rpn.filter (fun t => !isOpToken t) ++ numRuns [] := by
    intro rpn ops out h hops
    rw [scan_nil] at h
    obtain ⟨h1, h2⟩ := drain_ok ops rpn out h
    have hall : ∀ c ∈ ops, isOperator c = true := by
      intro c hc
      rcases hops c hc with h | h
      · exact h
      · exact absurd h (h2 c hc)
    subst h1
    rw [filter_operators_self ops hall]
    refine ⟨?_, ?_⟩
    · simp [numRuns, runsAux, opTokens, ← Multiset.coe_add]
    · rw [List.filter_append, filter_literals_map ops hall]
      simp [numRuns, runsAux]
  induction n with
  | zero =>
    intro s rpn ops out hn h hops
    have : s = [] := List.length_eq_zero.mp (Nat.le_zero.mp hn)
    subst this
    exact hnil rpn ops out h hops
  | succ n ih =>
    intro s rpn ops out hn h hops
    cases s with
    | nil => exact hnil rpn ops out h hops
    | cons c cs =>
      have hcn : cs.length ≤ n := by simpa using hn
      by_cases hnum : isNumChar c = true
      · rw [scan_num c cs rpn ops hnum] at h
        obtain ⟨h1, h2⟩ := ih _ _ _ _ (le_trans (List.dropWhile_sublist _).length_le hcn) h hops
        have hrun : isOpToken (c :: cs.takeWhile isNumChar) = false := by
          apply run_not_opToken
          intro x hx
          rcases List.mem_cons.mp hx with rfl | hx
          · exact hnum
          · exact List.mem_takeWhile_imp hx
        refine ⟨?_, ?_⟩
        · rw [h1, numRuns_num c cs hnum, opTokens_dropWhile,
            opTokens_cons_other c cs (isNumChar_not_operator hnum), coe_cons_add,
            ← Multiset.coe_add, coe_cons_add]
          simp only [Multiset.coe_nil]
          abel
        · rw [h2, numRuns_num c cs hnum, List.filter_append]
          simp [List.filter_cons, hrun]
      · have hnum' : isNumChar c = false := by simpa using hnum
        by_cases hop : isOperator c = true
        · rw [scan_operator c cs rpn ops hop] at h
          obtain ⟨popped, kept, hsplit, hpop, _, hpush⟩ := pushOperator_split c hop ops rpn
          rw [hpush] at h
          simp only [] at h
          have hops' : ∀ x ∈ c :: kept, isOperator x = true ∨ x = '(' := by
            intro x hx
            rcases List.mem_cons.mp hx with rfl | hx
            · exact Or.inl hop
            · exact hops x (by rw [hsplit]; exact List.mem_append_right _ hx)
          obtain ⟨h1, h2⟩ := ih _ _ _ _ hcn h hops'
          refine ⟨?_, ?_⟩
          · rw [h1, numRuns_other c cs hnum', opTokens_cons_operator c cs hop, hsplit,
              List.filter_append, filter_operators_self popped hpop, List.filter_cons, hop]
            simp only [if_true, List.map_append, List.map_cons, ← Multiset.coe_add, coe_cons_add]
            abel
          · rw [h2, numRuns_other c cs hnum', List.filter_append,
              filter_literals_map popped hpop, List.append_nil]
        · have hop' : isOperator c = false := by simpa using hop
          by_cases ho : c = '('
          · subst ho
            rw [scan_open] at h
            have hops' : ∀ x ∈ '(' :: ops, isOperator x = true ∨ x = '(' := by
              intro x hx
              rcases List.mem_cons.mp hx with rfl | hx
              · exact Or.inr rfl
              · exact hops x hx
            obtain ⟨h1, h2⟩ := ih _ _ _ _ hcn h hops'
            refine ⟨?_, ?_⟩
            · rw [h1, numRuns_other _ cs hnum', opTokens_cons_other _ cs hop',
                List.filter_cons, hop']
              simp
            · rw [h2, numRuns_other _ cs hnum']
          · by_cases hc : c = ')'
            · subst hc
              rw [scan_close] at h
              cases hp : (popToOpen rpn ops).2 with
              | nil =>
                rw [hp] at h
                simp at h
              | cons x rest =>
                rw [hp] at h
                simp only [] at h
                obtain ⟨popped, hsplit, _, hpop, hrpn⟩ := popToOpen_split ops rpn x rest hp
                rw [hrpn] at h
                have hpop' : ∀ y ∈ popped, isOperator y = true := by
                  intro y hy
                  rcases hops y (by rw [hsplit]; exact List.mem_append_left _ hy) with h | h
                  · exact h
                  · exact absurd h (hpop y hy)
                have hops' : ∀ y ∈ rest, isOperator y = true ∨ y = '(' := by
                  intro y hy
                  exact hops y (by
                    rw [hsplit]
                    exact List.mem_append_right _ (List.mem_cons_of_mem _ hy))
                obtain ⟨h1, h2⟩ := ih _ _ _ _ hcn h hops'
                refine ⟨?_, ?_⟩
                · rw [h1, numRuns_other _ cs hnum', opTokens_cons_other _ cs hop', hsplit,
                    List.filter_append, filter_operators_self popped hpop', List.filter_cons,
                    show isOperator '(' = false by decide]
                  simp only [Bool.false_eq_true, if_false, List.map_append,
                    ← Multiset.coe_add]
                  abel
                · rw [h2, numRuns_other _ cs hnum', List.filter_append,
                    filter_literals_map popped hpop', List.append_nil]
            · by_cases hs : isSpace c = true
              · rw [scan_space c cs rpn ops hs] at h
                obtain ⟨h1, h2⟩ := ih _ _ _ _ hcn h hops
                refine ⟨?_, ?_⟩
                · rw [h1, numRuns_other _ cs hnum', opTokens_cons_other _ cs hop']
                · rw [h2, numRuns_other _ cs hnum']
              · have hall : isAllowed c = false := by
                  simp [isAllowed, hnum, hop, ho, hc, hs]
                rw [scan_disallowed c cs rpn ops hall] at h
                simp at h

theorem opTokens_isOpToken (s : GoString) : ∀ t ∈ opTokens s, isOpToken t = true := by
  intro t ht
  obtain ⟨c, hc, rfl⟩ := List.mem_map.mp ht
  exact isOpToken_singleton c (by simpa using (List.mem_filter.mp hc).2)

theorem numRuns_not_opToken (s : GoString) : ∀ t ∈ numRuns s, isOpToken t = false :=
  fun t ht => run_not_opToken (numRuns_mem s t ht).2

/-- The sequence a successful conversion returns is a permutation of the
numeric runs and the operator characters of the input, and its elements that
are not operators are the numeric runs in order. -/
theorem convertToRPN_tokens (s : GoString) (out : List GoString)
    (h : convertToRPN s = (out, none)) :
    List.Perm out (numRuns s ++ opTokens s)
      ∧ out.filter (fun t => !isOpToken t) = numRuns s := by
  obtain ⟨h1, h2⟩ := scan_tokens s.length s [] [] out le_rfl h (by simp)
  refine ⟨?_, by simpa using h2⟩
  apply Multiset.coe_eq_coe.mp
  rw [h1, ← Multiset.coe_add]
  simp

theorem convertToRPN_operators (s : GoString) (out : List GoString)
    (h : convertToRPN s = (out, none)) :
    List.Perm (out.filter isOpToken) (opTokens s) := by
  have hf1 : (numRuns s).filter isOpToken = [] :=
    List.filter_eq_nil_iff.mpr (fun t ht => by simp [numRuns_not_opToken s t ht])
  have hf2 : (opTokens s).filter isOpToken = opTokens s :=
    List.filter_eq_self.mpr (opTokens_isOpToken s)
  have := (convertToRPN_tokens s out h).1.filter isOpToken
  rw [List.filter_append, hf1, hf2, List.nil_append] at this
  exact this

/-- C12. For every expression on which `convertToRPN` succeeds, the returned
sequence contains no `"("` or `")"` element, its elements that are not
operators are exactly the maximal runs of digits and `'.'` of the input in
their source order, its operator elements are the `'+'`, `'-'`, `'*'`, `'/'`
characters of the input as a multiset, and its length is the number of numeric
runs plus the number of operator characters. -/
theorem C12_postfix_shape (s : GoString) (out : List GoString)
    (h : convertToRPN s = (out, none)) :
    ['('] ∉ out ∧ [')'] ∉ out
      ∧ out.filter (fun t => !isOpToken t) = numRuns s
      ∧ List.Perm (out.filter isOpToken) ((s.filter isOperator).map (fun c => [c]))
      ∧ out.length = (numRuns s).length + (s.filter isOperator).length := by
  obtain ⟨hperm, hlits⟩ := convertToRPN_tokens s out h
  have hmem : ∀ t ∈ out, (t ≠ [] ∧ ∀ c ∈ t, isNumChar c = true)
      ∨ ∃ c, isOperator c = true ∧ t = [c] := by
    intro t ht
    rcases List.mem_append.mp (hperm.mem_iff.mp ht) with h | h
    · exact Or.inl (numRuns_mem s t h)
    · obtain ⟨c, hc, rfl⟩ := List.mem_map.mp h
      exact Or.inr ⟨c, by simpa using (List.mem_filter.mp hc).2, rfl⟩
  refine ⟨?_, ?_, hlits, convertToRPN_operators s out h, ?_⟩
  · intro hm
    rcases hmem _ hm with ⟨_, h⟩ | ⟨c, hc, h⟩
    · exact absurd (h '(' (by simp)) (by decide)
    · simp only [List.cons.injEq, and_true] at h
      subst h
      revert hc
      decide
  · intro hm
    rcases hmem _ hm with ⟨_, h⟩ | ⟨c, hc, h⟩
    · exact absurd (h ')' (by simp)) (by decide)
    · simp only [List.cons.injEq, and_true] at h
      subst h
      revert hc
      decide
  · rw [hperm.length_eq, List.length_append]
    simp [opTokens]

theorem C12_postfix_shape_witness :
    convertToRPN "(12+3.5)*4".toList = ([['1', '2'], ['3', '.', '5'], ['+'], ['4'], ['*']], none)
      ∧ numRuns "(12+3.5)*4".toList = [['1', '2'], ['3', '.', '5'], ['4']]
      ∧ ([['1', '2'], ['3', '.', '5'], ['+'], ['4'], ['*']] : List GoString).length = 3 + 2 :=
  have h : convertToRPN "(12+3.5)*4".toList
      = ([['1', '2'], ['3', '.', '5'], ['+'], ['4'], ['*']], none) := by decide
  ⟨h, ((C12_postfix_shape _ _ h).2.2.1).symm.trans (by decide),
    (C12_postfix_shape _ _ h).2.2.2.2.trans (by decide)⟩

/-! ## What `Calc` needs to return a value -/

/-- Every literal adds one value to the stack and every operator removes
one. -/
theorem runStack_height {α : Type} (F : FloatOps α) : ∀ (rpn : List GoString) (st st' : List α),
    runStack F rpn st = .ok st' → st'.length + opCount rpn = st.length + litCount rpn := by
  intro rpn
  induction rpn with
  | nil =>
    intro st st' h
    simp only [runStack, Except.ok.injEq] at h
    subst h
    simp [opCount, litCount]
  | cons t rest ih =>
    intro st st' h
    rw [runStack] at h
    cases ht : isOpToken t with
    | false =>
      rw [stepStack_lit F st t ht] at h
      cases hp : F.parseFloat t with
      | none => rw [hp] at h; simp at h
      | some v =>
        rw [hp] at h
        have := ih _ _ h
        have hl : litCount (t :: rest) = litCount rest + 1 := by simp [litCount, ht]
        have ho : opCount (t :: rest) = opCount rest := by simp [opCount, ht]
        simp only [List.length_cons] at this
        omega
    | true =>
      have hl : litCount (t :: rest) = litCount rest := by simp [litCount, ht]
      have ho : opCount (t :: rest) = opCount rest + 1 := by simp [opCount, ht]
      match st, h with
      | [], h => rw [stepStack_short F [] t ht (by simp)] at h; simp at h
      | [x], h => rw [stepStack_short F [x] t ht (by simp)] at h; simp at h
      | b :: a :: below, h =>
        rcases stepStack_op F b a below t ht with ⟨_, _, h3⟩ | ⟨_, v, hv⟩
        · rw [h3] at h
          simp at h
        · rw [hv] at h
          have := ih _ _ h
          simp only [List.length_cons] at this ⊢
          omega

theorem runStack_parses {α : Type} (F : FloatOps α) : ∀ (rpn : List GoString) (st st' : List α),
    runStack F rpn st = .ok st' →
    ∀ t ∈ rpn, isOpToken t = false → (F.parseFloat t).isSome = true := by
  intro rpn
  induction rpn with
  | nil => intro st st' _ t ht; simp at ht
  | cons u rest ih =>
    intro st st' h t ht hlit
    rw [runStack] at h
    cases hstep : stepStack F st u with
    | error e => rw [hstep] at h; simp at h
    | ok st1 =>
      rw [hstep] at h
      rcases List.mem_cons.mp ht with rfl | ht
      · rw [stepStack_lit F st t hlit] at hstep
        cases hp : F.parseFloat t with
        | none => rw [hp] at hstep; simp at hstep
        | some v => rfl
      · exact ih _ _ h t ht hlit

theorem scanErr_none_allowed : ∀ (s : GoString) (depth : Nat), scanErr depth s = none →
    ∀ c ∈ s, isAllowed c = true := by
  intro s depth h c hc
  by_contra hca
  exact scanErr_disallowed s depth ⟨c, hc, by simpa using hca⟩ h

/-- A text derived by the grammar ends with a digit, a `'.'` or a `')'`. -/
theorem gen_last {level : Nat} {e : Expr} {s : GoString} (h : Gen level e s) :
    ∃ c, s.getLast? = some c ∧ (isNumChar c = true ∨ c = ')') := by
  induction h with
  | number w lit _ hlit =>
    have hne := isNumber_ne_nil hlit
    refine ⟨lit.getLast hne, ?_, Or.inl (isNumber_numChar hlit _ (List.getLast_mem hne))⟩
    rw [List.getLast?_append, List.getLast?_eq_getLast _ hne]
    rfl
  | parens w e s w' _ _ _ _ =>
    refine ⟨')', ?_, Or.inr rfl⟩
    have : w ++ '(' :: (s ++ (w' ++ [')'])) = (w ++ '(' :: (s ++ w')) ++ [')'] := by simp
    rw [this, List.getLast?_concat]
  | up _ _ _ _ _ ih => exact ih
  | binary op l s w r t _ _ _ _ _ ihr =>
    obtain ⟨c, hc, hcc⟩ := ihr
    refine ⟨c, ?_, hcc⟩
    have : s ++ (w ++ op :: t) = (s ++ w ++ [op]) ++ t := by simp
    rw [this, List.getLast?_append, hc]
    rfl

/-- C16 (amended). `Calc` returns a numeric value only for expressions that
consist of allowed characters with balanced brackets, whose numbers are all
accepted by `ParseFloat`, and that have exactly one more number than
operators; so two numbers with no operator and a number with a unary minus
give an error. -/
theorem C16_value_only_if {α : Type} (F : FloatOps α) (s : GoString)
    (h : (Calc F s).2 = none) :
    (∀ c ∈ s, isAllowed c = true) ∧ Balanced s
      ∧ (numRuns s).length = (s.filter isOperator).length + 1
      ∧ (∀ lit ∈ numRuns s, (F.parseFloat lit).isSome = true)
      ∧ (Calc F "1 2".toList).2 ≠ none ∧ (Calc F "-1".toList).2 ≠ none := by
  have hconv : (convertToRPN s).2 = none := by
    cases hc : (convertToRPN s).2 with
    | none => rfl
    | some e =>
      rw [Calc_of_convert_err F s e hc] at h
      simp at h
  obtain ⟨out, hout⟩ : ∃ out, convertToRPN s = (out, none) :=
    ⟨(convertToRPN s).1, Prod.ext rfl hconv⟩
  have herr : scanErr 0 s = none := by
    rw [← (convertToRPN_err s).1, hconv]
  have hall := scanErr_none_allowed s 0 herr
  have hbal : Balanced s := by
    rw [balanced_iff]
    by_contra hnb
    rw [(scanErr_allowed s 0 hall).2 hnb] at herr
    simp at herr
  rw [Calc_of_convert_ok F s out hout, calculateRPN] at h
  obtain ⟨v, hv⟩ := (calcLoop_ok_iff F out []).mp h
  have hlits := (convertToRPN_tokens s out hout).2
  have hops := convertToRPN_operators s out hout
  have hheight := runStack_height F out [] [v] hv
  have hl : litCount out = (numRuns s).length := by
    rw [litCount, List.countP_eq_length_filter, hlits]
  have ho : opCount out = (s.filter isOperator).length := by
    rw [opCount, List.countP_eq_length_filter, hops.length_eq, opTokens, List.length_map]
  refine ⟨hall, hbal, ?_, ?_, ?_, ?_⟩
  · simp only [List.length_singleton, List.length_nil] at hheight
    omega
  · intro lit hlit
    have hmem : lit ∈ out.filter (fun t => !isOpToken t) := by rw [hlits]; exact hlit
    have hm := List.mem_filter.mp hmem
    exact runStack_parses F out [] [v] hv lit hm.1 (by simpa using hm.2)
  · have hc : convertToRPN "1 2".toList = ([['1'], ['2']], none) := by decide
    rw [Calc_of_convert_ok F _ _ hc, calculateRPN, calcLoop_eq_run]
    intro hn
    have hok : (calcLoop F [['1'], ['2']] []).2 = none := by rw [calcLoop_eq_run]; exact hn
    obtain ⟨v, hv⟩ := (calcLoop_ok_iff F _ []).mp hok
    have := runStack_height F _ [] [v] hv
    simp [opCount, litCount, isOpToken] at this
  · have hc : convertToRPN "-1".toList = ([['1'], ['-']], none) := by decide
    rw [Calc_of_convert_ok F _ _ hc, calculateRPN]
    intro hn
    obtain ⟨v, hv⟩ := (calcLoop_ok_iff F _ []).mp hn
    have := runStack_height F _ [] [v] hv
    simp [opCount, litCount, isOpToken] at this

set_option maxRecDepth 100000 in
theorem C16_value_only_if_witness :
    Calc go64 "1 2 +".toList = (F64.ofNat 3, none)
      ∧ (numRuns "1 2 +".toList).length = ("1 2 +".toList.filter isOperator).length + 1
      ∧ Balanced "1 2 +".toList :=
  have h : (Calc go64 "1 2 +".toList).2 = none := by decide!
  ⟨by decide!, (C16_value_only_if go64 "1 2 +".toList h).2.2.1,
    (C16_value_only_if go64 "1 2 +".toList h).2.1⟩

set_option maxRecDepth 100000 in
/-- C16 as stated fails: `"1 2 +"` is not generated by the infix grammar, since
a generated text ends, before trailing whitespace, with a number or a `')'`,
but `convertToRPN` turns it into `[1, 2, +]` and `Calc` returns `3`. -/
theorem C16_counterexample :
    (¬ ∃ e : Expr, WellFormed e "1 2 +".toList)
      ∧ convertToRPN "1 2 +".toList = ([['1'], ['2'], ['+']], none)
      ∧ Calc go64 "1 2 +".toList = (F64.ofNat 3, none) := by
  refine ⟨?_, by decide, by decide!⟩
  rintro ⟨e, t, w, hgen, hw, hs⟩
  obtain ⟨c, hc, hcc⟩ := gen_last hgen
  have hlast : ("1 2 +".toList).getLast? = some '+' := by decide
  rw [hs, List.getLast?_append] at hlast
  cases hwl : w.getLast? with
  | none =>
    rw [hwl, hc] at hlast
    simp only [Option.or, Option.some.injEq] at hlast
    subst hlast
    rcases hcc with h | h
    · exact absurd h (by decide)
    · exact absurd h (by decide)
  | some x =>
    rw [hwl] at hlast
    simp only [Option.or, Option.some.injEq] at hlast
    subst hlast
    have := hw '+' (List.mem_of_getLast?_eq_some hwl)
    exact absurd this (by decide)

/-! ## The HTTP handler -/

theorem message_ne_empty (e : CalcError) : e.message ≠ "" := by
  cases e <;> decide

/-- C14. For a POST request with a decodable body on whose expression `Calc`
returns one of `ErrBrackets`, `ErrValues`, `ErrDivisionByZero`, `ErrAllowed`,
`CalcHandler` responds with status 422 and a JSON object whose only field
`"error"` is the text of that error; the status is never 500; a method other
than POST yields 405 and an undecodable body 400. -/
theorem C14_error_classification (method : String) (decoded : Option GoString) :
    (∀ (expression : GoString) (e : CalcError), method = "POST" → decoded = some expression →
        (Calc go64 expression).2 = some e →
        CalcHandler method decoded = ⟨422, some [("error", JsonValue.string e.message)]⟩)
      ∧ (CalcHandler method decoded).status ≠ 500
      ∧ (method ≠ "POST" → (CalcHandler method decoded).status = 405)
      ∧ (method = "POST" → decoded = none → (CalcHandler method decoded).status = 400)
      ∧ ErrBrackets.message = "Неверно. Количество скобок не совпадает"
      ∧ ErrValues.message = "Неверно. Недостаточно значений"
      ∧ ErrDivisionByZero.message = "Неверно. Деление на ноль"
      ∧ ErrAllowed.message = "Недопустимо. Допускаются только числа и ( ) + - * /" := by
  refine ⟨?_, ?_, ?_, ?_, rfl, rfl, rfl, rfl⟩
  · intro expression e hm hd he
    subst hm hd
    have hc : Calc go64 expression = ((Calc go64 expression).1, some e) := Prod.ext rfl he
    simp only [CalcHandler, if_true]
    rw [hc]
    simp [errorResponse, encodeResponse, go64, message_ne_empty]
  · unfold CalcHandler
    split
    · split
      · simp
      · split
        · simp [errorResponse]
        · simp
    · simp
  · intro hm
    simp [CalcHandler, hm]
  · intro hm hd
    subst hm hd
    simp [CalcHandler]

set_option maxRecDepth 100000 in
theorem C14_error_classification_witness :
    CalcHandler "POST" (some "2+(2*2".toList)
        = ⟨422, some [("error", JsonValue.string "Неверно. Количество скобок не совпадает")]⟩
      ∧ CalcHandler "POST" (some "2/0".toList)
        = ⟨422, some [("error", JsonValue.string "Неверно. Деление на ноль")]⟩
      ∧ (CalcHandler "GET" none).status = 405 ∧ (CalcHandler "POST" none).status = 400 :=
  have h := C14_error_classification "POST" (some "2+(2*2".toList)
  have h' := C14_error_classification "POST" (some "2/0".toList)
  ⟨h.1 _ ErrBrackets rfl rfl (by decide), h'.1 _ ErrDivisionByZero rfl rfl (by decide!),
    (C14_error_classification "GET" none).2.2.1 (by decide),
    (C14_error_classification "POST" none).2.2.2.1 rfl rfl⟩

set_option maxRecDepth 100000 in
/-- C13 fails on the code: `Calc("1-1")` returns the value `0`, and the handler
answers 200 with an object that has no `"result"` field, because the field is
tagged `omitempty`; a non-zero finite value such as `7` is serialised; and for
an infinite value, as of `1e308 * 10` written out in digits, `Encode` fails and
the body stays empty. -/
theorem C13_zero_result_omitted :
    Calc go64 "1-1".toList = (F64.fin false 0, none)
      ∧ CalcHandler "POST" (some "1-1".toList) = ⟨200, some []⟩
      ∧ CalcHandler "POST" (some "1+2*3".toList)
          = ⟨200, some [("result", JsonValue.number (F64.ofNat 7))]⟩
      ∧ Calc go64 ('1' :: List.replicate 308 '0' ++ "*10".toList) = (F64.inf false, none)
      ∧ CalcHandler "POST" (some ('1' :: List.replicate 308 '0' ++ "*10".toList))
          = ⟨200, none⟩ := by
  decide!

end CalcGO
